import Mathlib

/-
Verification of the typelib type-name parser/builder and registry core.

The repository ships the `TypeBuilder` declaration header
(`src/typelib/typebuilder.hh`) and the Ruby binding wrapper
(`src/bindings/ruby/ext/registry.hh`).  The bodies of `Registry::get`,
`Registry::build`, `Registry::alias` and of the `TypeBuilder` methods are not
part of the visible sources, so those operations are modelled from the
specification; the Ruby wrapper functions are embedded directly from
`registry.hh`.  Type names are embedded as `List Char` (C++ `std::string`),
the nullable `Type const*` results and the thrown `BadName` / `Undefined`
exceptions as `Except` values.
-/

set_option maxHeartbeats 1000000

namespace Typelib

instance {ε α : Type} [DecidableEq ε] [DecidableEq α] : DecidableEq (Except ε α) :=
  fun x y =>
    match x, y with
    | Except.ok a, Except.ok b =>
      if h : a = b then isTrue (by rw [h])
      else isFalse (fun hh => h (Except.noConfusion hh id))
    | Except.error a, Except.error b =>
      if h : a = b then isTrue (by rw [h])
      else isFalse (fun hh => h (Except.noConfusion hh id))
    | Except.ok _, Except.error _ => isFalse (fun hh => Except.noConfusion hh)
    | Except.error _, Except.ok _ => isFalse (fun hh => Except.noConfusion hh)

/-- Modelled from the spec: characters that may appear inside a base type
name (identifier characters, `_`, and `:` for namespaced names); the error
table lists "bad characters" in a type name as a `BadName` condition. -/
def isIdentChar (c : Char) : Bool :=
  c.isAlpha || c.isDigit || c = '_' || c = ':'

/-- Modelled from the spec: characters that may start a base type name
(the alias test `alias("Foo", "123Invalid")` fails with `BadName`, so a
leading digit is not allowed). -/
def isIdentStart (c : Char) : Bool :=
  c.isAlpha || c = '_'

/-- Modelled from the spec: syntactic validity of a base type name — a
nonempty run of identifier characters not starting with a digit. -/
def validBaseName : List Char → Bool
  | [] => false
  | c :: cs => isIdentStart c && (c :: cs).all isIdentChar

/-- The type model (`Type` in `typemodel.hh`, which is not among the visible
sources).  Modelled from the spec: a closed variant over the categories the
core inspects — base (numeric/compound/enum, opaque here), pointer, array. -/
inductive Ty : Type where
  | base (name : List Char)
  | pointer (pointee : Ty)
  | array (size : Nat) (elemT : Ty)
deriving DecidableEq, Repr

/-- Decimal digit characters of `n`, most significant first (the rendering
used when forming the canonical name of an array type). -/
def digitChars (n : Nat) : List Char :=
  ((Nat.digits 10 n).map Nat.digitChar).reverse

/-- Decimal rendering of `n` (with `0` rendered as `"0"`). -/
def natChars (n : Nat) : List Char :=
  if n = 0 then ['0'] else digitChars n

/-- Modelled from the spec: the canonical name of a type — the base name
followed by modifier suffixes, `*` per pointer level and `[n]` per array
dimension. -/
def Ty.name : Ty → List Char
  | .base s => s
  | .pointer t => t.name ++ ['*']
  | .array n t => t.name ++ '[' :: (natChars n ++ [']'])

/-- The base-name prefix underlying a (possibly composite) type. -/
def Ty.root : Ty → List Char
  | .base s => s
  | .pointer t => t.root
  | .array _ t => t.root

/-- The modifier-suffix part of a type's canonical name, so that
`t.name = t.root ++ t.suffixChars`. -/
def Ty.suffixChars : Ty → List Char
  | .base _ => []
  | .pointer t => t.suffixChars ++ ['*']
  | .array n t => t.suffixChars ++ '[' :: (natChars n ++ [']'])

/-- A type all of whose base names are syntactically valid. -/
def Ty.valid : Ty → Bool
  | .base s => validBaseName s
  | .pointer t => t.valid
  | .array _ t => t.valid

/-- The direct components of a composite type (pointed-to type, element
type). -/
def Ty.comps : Ty → List Ty
  | .base _ => []
  | .pointer t => [t]
  | .array _ t => [t]

/-- The modifier categories used by `TypeBuilder::Modifier`
(`src/typelib/typebuilder.hh`, lines 18-22). -/
inductive Category : Type where
  | pointer
  | array
deriving DecidableEq, Repr

/-- `TypeBuilder::Modifier` (`src/typelib/typebuilder.hh`, lines 18-22):
a category plus a size — the size of an array, or the dereference count on
multi-level pointers.  The C++ `int` is embedded as `Nat`: parsing only
produces non-negative sizes. -/
structure Modifier where
  category : Category
  size : Nat
deriving DecidableEq, Repr

/-- Modelled from the spec: split a full type name into the base-name prefix
and the modifier suffix, at the first `*` or `[`. -/
def splitName : List Char → List Char × List Char
  | [] => ([], [])
  | c :: cs =>
    if c = '*' ∨ c = '[' then ([], c :: cs)
    else (c :: (splitName cs).1, (splitName cs).2)

/-- `TypeBuilder::getBaseTypename` (`src/typelib/typebuilder.hh`, line 57):
the base-name prefix of a full type name. -/
def getBaseTypename (full : List Char) : List Char := (splitName full).1

/-- Numeric value of a digit character. -/
def charVal (c : Char) : Nat := c.toNat - 48

/-- Numeric value of a digit-character run (decimal, most significant
first). -/
def val (ds : List Char) : Nat := ds.foldl (fun a c => 10 * a + charVal c) 0

/-- Append one pointer dereference level at the end of a modifier list,
folding it into a final pointer modifier when there is one (consecutive `*`
form a single multi-level pointer modifier). -/
def pushPtr : List Modifier → List Modifier
  | [] => [⟨Category.pointer, 1⟩]
  | [m] =>
    match m.category with
    | Category.pointer => [⟨Category.pointer, m.size + 1⟩]
    | Category.array => [m, ⟨Category.pointer, 1⟩]
  | m :: m' :: ms => m :: pushPtr (m' :: ms)

/-- Scanner state for the modifier-suffix tokenizer: either between
modifiers, or inside `[...]` with the digits accumulated so far (`none`
while no digit has been seen). -/
inductive ParseState : Type where
  | normal : ParseState
  | bracket : Option Nat → ParseState
deriving DecidableEq, Repr

/-- Modelled from the spec: one-pass tokenizer for a modifier suffix.  A
maximal run of `*` accumulates into a single pointer modifier; `[<digits>]`
appends an array modifier; anything else (stray characters, an unclosed or
empty bracket, non-digit bracket content) is a malformed suffix. -/
def suffixDFA : List Char → ParseState → List Modifier → Option (List Modifier)
  | [], ParseState.normal, acc => some acc
  | [], ParseState.bracket _, _ => none
  | c :: cs, ParseState.normal, acc =>
    if c = '*' then suffixDFA cs ParseState.normal (pushPtr acc)
    else if c = '[' then suffixDFA cs (ParseState.bracket none) acc
    else none
  | c :: cs, ParseState.bracket d, acc =>
    if c.isDigit = true then
      suffixDFA cs (ParseState.bracket (some (10 * d.getD 0 + charVal c))) acc
    else if c = ']' then
      match d with
      | none => none
      | some n => suffixDFA cs ParseState.normal (acc ++ [⟨Category.array, n⟩])
    else none

/-- Modelled from the spec: tokenize a modifier suffix into a modifier list
(`none` on a malformed suffix; the empty suffix yields the empty list). -/
def parseSuffix (s : List Char) : Option (List Modifier) :=
  suffixDFA s ParseState.normal []

/-- Iterated end-append of pointer levels. -/
def pushPtrN : Nat → List Modifier → List Modifier
  | 0, acc => acc
  | k + 1, acc => pushPtrN k (pushPtr acc)

/-- First-match association-list lookup (registry maps are keyed by
name). -/
def assoc {α : Type} : List (List Char × α) → List Char → Option α
  | [], _ => none
  | (k, v) :: tl, n => if k = n then some v else assoc tl n

/-- The registry (`Registry` in `registry.hh`/`registry.cc`, not among the
visible sources).  Modelled from the spec: a mapping from canonical name to
type, plus a mapping from alias name to canonical name. -/
structure Registry where
  types : List (List Char × Ty)
  aliases : List (List Char × List Char)
deriving DecidableEq, Repr

/-- `Registry::get`.  Modelled from the spec: pure lookup by canonical name
or alias in one shared namespace, never parses or constructs, nothing on a
miss. -/
def Registry.get (r : Registry) (n : List Char) : Option Ty :=
  match assoc r.types n with
  | some t => some t
  | none =>
    match assoc r.aliases n with
    | some c => assoc r.types c
    | none => none

/-- Register a type under its canonical name. -/
def Registry.add (r : Registry) (t : Ty) : Registry :=
  { r with types := (t.name, t) :: r.types }

/-- The error kinds of this layer: `BadName` for a name that does not match
the grammar, `Undefined` (carrying the missing name) for a well-formed name
whose base type is not registered. -/
inductive BuildError : Type where
  | badName
  | undefined (missingName : List Char)
deriving DecidableEq, Repr

/-- `TypeBuilder` (`src/typelib/typebuilder.hh`): the registry acted on and
the current type.  The current type is a total field — the builder always
holds a type once constructed. -/
structure TypeBuilder where
  m_registry : Registry
  m_type : Ty
deriving DecidableEq, Repr

/-- `TypeBuilder::getType` (`src/typelib/typebuilder.hh`, line 54): the
current type. -/
def TypeBuilder.getType (tb : TypeBuilder) : Ty := tb.m_type

/-- Modelled from the spec: one construction step — compute the canonical
name of the wrapped type, get it from the registry first (memoization), and
only fabricate and register a new type on a true miss. -/
def TypeBuilder.wrap (tb : TypeBuilder) (w : Ty) : TypeBuilder :=
  match tb.m_registry.get w.name with
  | some t => ⟨tb.m_registry, t⟩
  | none => ⟨tb.m_registry.add w, w⟩

/-- `TypeBuilder::addPointer` (`src/typelib/typebuilder.hh`, line 49).
Modelled from the spec: build a level-dereferenced pointer of the current
type, one registered level at a time. -/
def TypeBuilder.addPointer (tb : TypeBuilder) : Nat → TypeBuilder
  | 0 => tb
  | k + 1 => (tb.wrap (Ty.pointer tb.m_type)).addPointer k

/-- `TypeBuilder::addArray` (`src/typelib/typebuilder.hh`, line 51).
Modelled from the spec: build an array of `size` elements of the current
type. -/
def TypeBuilder.addArray (tb : TypeBuilder) (size : Nat) : TypeBuilder :=
  tb.wrap (Ty.array size tb.m_type)

/-- Apply one parsed modifier through the incremental builder operations. -/
def TypeBuilder.applyModifier (tb : TypeBuilder) (m : Modifier) : TypeBuilder :=
  match m.category with
  | Category.pointer => tb.addPointer m.size
  | Category.array => tb.addArray m.size

/-- The construction half of `TypeBuilder::build`: apply each modifier in
sequence to progressively wrap the current type. -/
def TypeBuilder.applyAll : TypeBuilder → List Modifier → TypeBuilder
  | tb, [] => tb
  | tb, m :: ms => (tb.applyModifier m).applyAll ms

/-- `TypeBuilder::parse` (`src/typelib/typebuilder.hh`, line 26).  Modelled
from the spec: separate the base-name prefix from the modifier suffix,
fail with `BadName` on a syntactically invalid name, tokenize the suffix,
and look the base name up in the registry, failing with `Undefined` when it
has no registered type. -/
def TypeBuilder.parse (r : Registry) (full : List Char) :
    Except BuildError (Ty × List Modifier) :=
  if validBaseName (getBaseTypename full) = false then Except.error BuildError.badName
  else
    match parseSuffix (splitName full).2 with
    | none => Except.error BuildError.badName
    | some ms =>
      match r.get (getBaseTypename full) with
      | none => Except.error (BuildError.undefined (getBaseTypename full))
      | some t => Except.ok (t, ms)

/-- The `TypeBuilder(Registry&, std::list<std::string> const&)` constructor
(`src/typelib/typebuilder.hh`, lines 32-40): gets its initial type from the
registry and fails with `Undefined` when the base is not defined. -/
def TypeBuilder.ofBase (r : Registry) (basename : List Char) :
    Except BuildError TypeBuilder :=
  match r.get basename with
  | none => Except.error (BuildError.undefined basename)
  | some t => Except.ok ⟨r, t⟩

/-- The `TypeBuilder(Registry&, Type const*)` constructor
(`src/typelib/typebuilder.hh`, line 46): starts from a given type. -/
def TypeBuilder.ofType (r : Registry) (t : Ty) : TypeBuilder := ⟨r, t⟩

/-- `TypeBuilder::build` (`src/typelib/typebuilder.hh`, line 56).  Modelled
from the spec: parse the full name, then materialize the modifier list,
registering every newly created intermediate and final type. -/
def TypeBuilder.build (r : Registry) (full : List Char) :
    Except BuildError (Ty × Registry) :=
  match TypeBuilder.parse r full with
  | Except.error e => Except.error e
  | Except.ok (t, ms) =>
    let tb := TypeBuilder.applyAll ⟨r, t⟩ ms
    Except.ok (tb.m_type, tb.m_registry)

/-- `Registry::build`.  Modelled from the spec: resolve through `get` first
(fast path for already-known names and aliases), and on a miss delegate to
`TypeBuilder` to parse and construct. -/
def Registry.build (r : Registry) (full : List Char) :
    Except BuildError (Ty × Registry) :=
  match r.get full with
  | some t => Except.ok (t, r)
  | none => TypeBuilder.build r full

/-- `Registry::alias`.  Modelled from the spec: fails with `Undefined` when
the existing name does not resolve, with `BadName` when the new name is not
a syntactically valid (alias) name; on success records the new name as an
alias for the resolved type's canonical name (newest alias first, so a
re-alias of the same name wins). -/
def Registry.alias (r : Registry) (existingName newName : List Char) :
    Except BuildError Registry :=
  match r.get existingName with
  | none => Except.error (BuildError.undefined existingName)
  | some t =>
    if validBaseName newName then
      Except.ok { r with aliases := (newName, t.name) :: r.aliases }
    else Except.error BuildError.badName

/-- Iterated pointer wrapping (the pure shape of a multi-level pointer
modifier). -/
def iterPtr : Nat → Ty → Ty
  | 0, t => t
  | k + 1, t => iterPtr k (Ty.pointer t)

/-- The pure denotation of a modifier list applied to a type (construction
without the registry). -/
def Ty.applyMods : Ty → List Modifier → Ty
  | t, [] => t
  | t, m :: ms =>
    Ty.applyMods
      (match m.category with
        | Category.pointer => iterPtr m.size t
        | Category.array => Ty.array m.size t) ms

/-- The canonical modifier list of a type: what tokenizing its own
canonical-name suffix yields. -/
def Ty.canonMods : Ty → List Modifier
  | .base _ => []
  | .pointer t => pushPtr t.canonMods
  | .array n t => t.canonMods ++ [⟨Category.array, n⟩]

/-- Modelled from the spec: the registry invariants — canonical keys are
unique, every entry is keyed by its type's canonical name, registered types
have syntactically valid base names, components of registered composites are
themselves registered, and every alias is a syntactically valid name whose
target canonical name is registered. -/
def Registry.wf (r : Registry) : Prop :=
  (r.types.map Prod.fst).Nodup
  ∧ (∀ e ∈ r.types, e.1 = e.2.name)
  ∧ (∀ e ∈ r.types, e.2.valid = true)
  ∧ (∀ e ∈ r.types, ∀ s ∈ e.2.comps, (s.name, s) ∈ r.types)
  ∧ (∀ a ∈ r.aliases, validBaseName a.1 = true ∧ (assoc r.types a.2).isSome = true)

instance (r : Registry) : Decidable r.wf := by
  unfold Registry.wf; infer_instance

/-- A well-formed type specification: valid base-name prefix and a suffix
that tokenizes. -/
def wellFormedName (n : List Char) : Prop :=
  validBaseName (getBaseTypename n) = true
  ∧ (parseSuffix (splitName n).2).isSome = true

instance (n : List Char) : Decidable (wellFormedName n) := by
  unfold wellFormedName; infer_instance

/-- `s` occurs inside `t` as an iterated component (reflexive). -/
inductive IsComp : Ty → Ty → Prop where
  | refl (t : Ty) : IsComp t t
  | ptr {s t : Ty} : IsComp s t → IsComp s (Ty.pointer t)
  | arr {s t : Ty} (n : Nat) : IsComp s t → IsComp s (Ty.array n t)

/-- The observable Ruby-level failures raised by the binding
(`src/bindings/ruby/ext/registry.hh`): exception class plus message. -/
inductive RubyError : Type where
  | typeError (msg : List Char)
  | argError (msg : List Char)
  | runtimeError (msg : List Char)
deriving DecidableEq, Repr

/-- `registry_do_get` (`src/bindings/ruby/ext/registry.hh`, lines 19-27):
returns the lookup result (nil on a miss) and leaves the registry as it
was. -/
def registry_do_get (r : Registry) (n : List Char) : Option Ty × Registry :=
  (r.get n, r)

/-- `registry_do_build` (`src/bindings/ruby/ext/registry.hh`, lines 29-38):
a null build result raises `TypeError` with the single message
`"invalid type %s"`, whatever the failure cause. -/
def registry_do_build (r : Registry) (n : List Char) :
    Except RubyError (Ty × Registry) :=
  match r.build n with
  | Except.ok x => Except.ok x
  | Except.error _ => Except.error (RubyError.typeError ("invalid type ".toList ++ n))

/-- `registry_alias` (`src/bindings/ruby/ext/registry.hh`, lines 40-60):
calls `Registry::alias(aliased, name)`; `BadName` raises `ArgumentError`
`"invalid type name %s"` with the new name, `Undefined` raises
`ArgumentError` `"no such type %s"` with the aliased (existing) name. -/
def registry_alias (r : Registry) (name aliased : List Char) :
    Except RubyError Registry :=
  match r.alias aliased name with
  | Except.ok r₁ => Except.ok r₁
  | Except.error BuildError.badName =>
    Except.error (RubyError.argError ("invalid type name ".toList ++ name))
  | Except.error (BuildError.undefined _) =>
    Except.error (RubyError.argError ("no such type ".toList ++ aliased))

/-- `registry_import` (`src/bindings/ruby/ext/registry.hh`, lines 66-96):
delegates to `PluginManager::load` (not among the visible sources; its
outcome is taken as an argument) and maps an `ImportError` with message `m`
to `RuntimeError` `"cannot import %s: %s"`. -/
def registry_import (file : List Char) (loadResult : Except (List Char) Registry) :
    Except RubyError Registry :=
  match loadResult with
  | Except.ok r₁ => Except.ok r₁
  | Except.error msg =>
    Except.error
      (RubyError.runtimeError ("cannot import ".toList ++ file ++ ": ".toList ++ msg))

/-- Concrete registry with one base type `Foo`, used to instantiate
universally quantified theorems. -/
def fooChars : List Char := ['F', 'o', 'o']

/-- Concrete base name with no registered type. -/
def barChars : List Char := ['B', 'a', 'r']

/-- A registry holding the single base type `Foo`. -/
def regFoo : Registry := ⟨[(fooChars, Ty.base fooChars)], []⟩

/-- A registry holding two distinct base types `A` and `B`. -/
def regAB : Registry :=
  ⟨[(['A'], Ty.base ['A']), (['B'], Ty.base ['B'])], []⟩

/-- `regAB` after `alias("A", "B")`: the alias table maps `B` to `A`. -/
def regAB' : Registry :=
  ⟨[(['A'], Ty.base ['A']), (['B'], Ty.base ['B'])], [(['B'], ['A'])]⟩

/-- The name `Foo*`. -/
def fooStarChars : List Char := ['F', 'o', 'o', '*']

/-- `regFoo` after `build("Foo*")`: the pointer type has been registered
under its canonical name. -/
def regFooStar : Registry :=
  ⟨[(fooStarChars, Ty.pointer (Ty.base fooChars)), (fooChars, Ty.base fooChars)], []⟩

/-- The base name `NoSuchBase`, registered nowhere. -/
def nsbChars : List Char := ['N', 'o', 'S', 'u', 'c', 'h', 'B', 'a', 's', 'e']

/-- The name `NoSuchBase*`. -/
def nsbStarChars : List Char := nsbChars ++ ['*']

/-- `regFoo` after a successful `alias("Foo", "Bar")`. -/
def regFooBar : Registry :=
  ⟨[(fooChars, Ty.base fooChars)], [(barChars, fooChars)]⟩

theorem isIdentChar_ne {c : Char} (h : isIdentChar c = true) :
    c ≠ '*' ∧ c ≠ '[' ∧ c ≠ ']' := by
  refine ⟨?_, ?_, ?_⟩ <;> rintro rfl <;> revert h <;> decide

theorem isDigitChar_ne {c : Char} (h : c.isDigit = true) :
    c ≠ '*' ∧ c ≠ '[' ∧ c ≠ ']' := by
  refine ⟨?_, ?_, ?_⟩ <;> rintro rfl <;> revert h <;> decide

theorem validBaseName_ne_nil {s : List Char} (h : validBaseName s = true) : s ≠ [] := by
  cases s with
  | nil => exact absurd h (by decide)
  | cons a tl => simp

theorem validBaseName_all {s : List Char} (h : validBaseName s = true) :
    ∀ c ∈ s, isIdentChar c = true := by
  cases s with
  | nil => intro c hc; cases hc
  | cons a tl =>
    simp only [validBaseName, Bool.and_eq_true, List.all_eq_true] at h
    exact h.2

theorem natChars_digits {n : Nat} : ∀ c ∈ natChars n, c.isDigit = true := by
  intro c hc
  unfold natChars at hc
  by_cases h : n = 0
  · rw [if_pos h, List.mem_singleton] at hc
    subst hc; decide
  · rw [if_neg h] at hc
    unfold digitChars at hc
    rw [List.mem_reverse, List.mem_map] at hc
    obtain ⟨d, hd, rfl⟩ := hc
    have hlt : d < 10 := Nat.digits_lt_base (by norm_num) hd
    interval_cases d <;> decide

theorem natChars_ne_nil {n : Nat} : natChars n ≠ [] := by
  unfold natChars
  by_cases h : n = 0
  · simp [h]
  · have h2 : Nat.digits 10 n ≠ [] := Nat.digits_ne_nil_iff_ne_zero.mpr h
    simp [h, digitChars, h2]

theorem digitChar_inj_lt : ∀ a < 10, ∀ b < 10, Nat.digitChar a = Nat.digitChar b → a = b := by
  decide

theorem charVal_digitChar : ∀ d < 10, charVal (Nat.digitChar d) = d := by
  decide

theorem map_digitChar_inj :
    ∀ l₁ l₂ : List Nat, (∀ d ∈ l₁, d < 10) → (∀ d ∈ l₂, d < 10) →
      l₁.map Nat.digitChar = l₂.map Nat.digitChar → l₁ = l₂ := by
  intro l₁
  induction l₁ with
  | nil => intro l₂ _ _ h; cases l₂ with
    | nil => rfl
    | cons b tl => cases h
  | cons a tl ih =>
    intro l₂ h₁ h₂ h
    cases l₂ with
    | nil => cases h
    | cons b tl' =>
      simp only [List.map_cons, List.cons.injEq] at h
      have ha := h₁ a (List.mem_cons_self _ _)
      have hb := h₂ b (List.mem_cons_self _ _)
      have hab := digitChar_inj_lt a ha b hb h.1
      subst hab
      rw [ih tl' (fun d hd => h₁ d (List.mem_cons_of_mem _ hd))
        (fun d hd => h₂ d (List.mem_cons_of_mem _ hd)) h.2]

theorem digitChars_eq_singleton_zero {m : Nat} (h : digitChars m = ['0']) : m = 0 := by
  unfold digitChars at h
  rw [List.reverse_eq_iff] at h
  simp only [List.reverse_cons, List.reverse_nil, List.nil_append] at h
  rcases hm : Nat.digits 10 m with _ | ⟨d, ds⟩
  · rw [hm] at h; cases h
  · rw [hm] at h
    simp only [List.map_cons, List.cons.injEq] at h
    have hd : d < 10 := Nat.digits_lt_base (by norm_num) (by rw [hm]; exact List.mem_cons_self _ _)
    have hd0 : d = 0 := digitChar_inj_lt d hd 0 (by norm_num) (by simpa using h.1)
    have hds : ds = [] := List.map_eq_nil_iff.mp h.2
    have := Nat.ofDigits_digits 10 m
    rw [hm, hd0, hds] at this
    simpa [Nat.ofDigits] using this.symm

theorem natChars_inj {n m : Nat} (h : natChars n = natChars m) : n = m := by
  unfold natChars at h
  by_cases hn : n = 0 <;> by_cases hm : m = 0
  · rw [hn, hm]
  · rw [if_pos hn, if_neg hm] at h
    exact absurd (digitChars_eq_singleton_zero h.symm) hm
  · rw [if_neg hn, if_pos hm] at h
    exact absurd (digitChars_eq_singleton_zero h) hn
  · rw [if_neg hn, if_neg hm] at h
    unfold digitChars at h
    have h2 := List.reverse_injective h
    have h3 := map_digitChar_inj _ _
      (fun d hd => Nat.digits_lt_base (by norm_num) hd)
      (fun d hd => Nat.digits_lt_base (by norm_num) hd) h2
    calc n = Nat.ofDigits 10 (Nat.digits 10 n) := (Nat.ofDigits_digits 10 n).symm
    _ = Nat.ofDigits 10 (Nat.digits 10 m) := by rw [h3]
    _ = m := Nat.ofDigits_digits 10 m

theorem foldl_digitChars (l : List Nat) (hl : ∀ d ∈ l, d < 10) (acc : Nat) :
    ((l.map Nat.digitChar).reverse).foldl (fun a c => 10 * a + charVal c) acc
      = acc * 10 ^ l.length + Nat.ofDigits 10 l := by
  induction l generalizing acc with
  | nil => simp
  | cons d tl ih =>
    simp only [List.map_cons, List.reverse_cons, List.foldl_append, List.foldl_cons,
      List.foldl_nil]
    rw [ih (fun x hx => hl x (List.mem_cons_of_mem _ hx)) acc,
      charVal_digitChar d (hl d (List.mem_cons_self _ _)), Nat.ofDigits_cons,
      List.length_cons, pow_succ]
    ring

theorem val_natChars (n : Nat) : val (natChars n) = n := by
  unfold natChars
  by_cases h : n = 0
  · rw [if_pos h, h]; decide
  · rw [if_neg h]
    unfold digitChars val
    rw [foldl_digitChars _ (fun d hd => Nat.digits_lt_base (by norm_num) hd) 0]
    simp [Nat.ofDigits_digits]

theorem name_eq_root_append (t : Ty) : t.name = t.root ++ t.suffixChars := by
  induction t with
  | base s => simp [Ty.name, Ty.root, Ty.suffixChars]
  | pointer t ih => simp [Ty.name, Ty.root, Ty.suffixChars, ih, List.append_assoc]
  | array n t ih => simp [Ty.name, Ty.root, Ty.suffixChars, ih, List.append_assoc]

theorem valid_root {t : Ty} (h : t.valid = true) : validBaseName t.root = true := by
  induction t with
  | base s => exact h
  | pointer t ih => exact ih h
  | array n t ih => exact ih h

theorem suffixChars_head {t : Ty} {c : Char} (h : t.suffixChars.head? = some c) :
    c = '*' ∨ c = '[' := by
  induction t with
  | base s => simp [Ty.suffixChars] at h
  | pointer t ih =>
    simp only [Ty.suffixChars] at h
    rcases ht : t.suffixChars with _ | ⟨a, tl⟩
    · rw [ht] at h
      simp only [List.nil_append, List.head?_cons, Option.some.injEq] at h
      left; exact h.symm
    · rw [ht] at h
      simp only [List.cons_append, List.head?_cons, Option.some.injEq] at h
      subst h
      exact ih (by rw [ht]; rfl)
  | array n t ih =>
    simp only [Ty.suffixChars] at h
    rcases ht : t.suffixChars with _ | ⟨a, tl⟩
    · rw [ht] at h
      simp only [List.nil_append, List.head?_cons, Option.some.injEq] at h
      right; exact h.symm
    · rw [ht] at h
      simp only [List.cons_append, List.head?_cons, Option.some.injEq] at h
      subst h
      exact ih (by rw [ht]; rfl)

theorem splitName_ident_append {b s : List Char}
    (hb : ∀ c ∈ b, isIdentChar c = true)
    (hs : ∀ c, s.head? = some c → c = '*' ∨ c = '[') :
    splitName (b ++ s) = (b, s) := by
  induction b with
  | nil =>
    cases s with
    | nil => rfl
    | cons c tl =>
      have hc := hs c rfl
      simp only [List.nil_append]
      unfold splitName
      rw [if_pos hc]
  | cons a b ih =>
    have ha := hb a (List.mem_cons_self _ _)
    have h1 := (isIdentChar_ne ha).1
    have h2 := (isIdentChar_ne ha).2.1
    simp only [List.cons_append]
    unfold splitName
    rw [if_neg (by rintro (rfl | rfl) <;> simp_all),
      ih (fun c hc => hb c (List.mem_cons_of_mem _ hc))]

theorem splitName_validBase {n : List Char} (h : validBaseName n = true) :
    splitName n = (n, []) := by
  have := @splitName_ident_append n [] (validBaseName_all h)
    (fun c hc => by simp at hc)
  simpa using this

theorem splitName_name {t : Ty} (h : t.valid = true) :
    splitName t.name = (t.root, t.suffixChars) := by
  rw [name_eq_root_append]
  exact splitName_ident_append (validBaseName_all (valid_root h))
    (fun c hc => suffixChars_head hc)

theorem name_ne_nil {t : Ty} (h : t.valid = true) : t.name ≠ [] := by
  cases t with
  | base s => exact validBaseName_ne_nil h
  | pointer t => simp [Ty.name]
  | array n t => simp [Ty.name]

theorem bracket_not_mem_natChars {n : Nat} : '[' ∉ natChars n := by
  intro h
  have := natChars_digits _ h
  exact absurd this (by decide)

theorem append_bracket_inj {a b d₁ d₂ : List Char}
    (hd₁ : '[' ∉ d₁) (hd₂ : '[' ∉ d₂)
    (h : a ++ '[' :: d₁ = b ++ '[' :: d₂) : a = b ∧ d₁ = d₂ := by
  induction a generalizing b with
  | nil =>
    cases b with
    | nil => simpa using h
    | cons x xs =>
      simp only [List.nil_append, List.cons_append, List.cons.injEq] at h
      exact absurd (by rw [h.2]; exact List.mem_append_right _ (List.mem_cons_self _ _)) hd₁
  | cons y ys ih =>
    cases b with
    | nil =>
      simp only [List.cons_append, List.nil_append, List.cons.injEq] at h
      exact absurd (by rw [← h.2]; exact List.mem_append_right _ (List.mem_cons_self _ _)) hd₂
    | cons x xs =>
      simp only [List.cons_append, List.cons.injEq] at h
      obtain ⟨rfl, h2⟩ := h
      obtain ⟨h3, h4⟩ := ih h2
      exact ⟨by rw [h3], h4⟩

theorem name_inj {t₁ : Ty} : ∀ {t₂ : Ty}, t₁.valid = true → t₂.valid = true →
    t₁.name = t₂.name → t₁ = t₂ := by
  induction t₁ with
  | base s =>
    intro t₂ h₁ h₂ h
    cases t₂ with
    | base s' => rw [show s = s' from h]
    | pointer t =>
      have : '*' ∈ s := by
        rw [show s = t.name ++ ['*'] from h]
        exact List.mem_append_right _ (List.mem_cons_self _ _)
      exact absurd (validBaseName_all h₁ _ this) (by decide)
    | array n t =>
      have : '[' ∈ s := by
        rw [show s = t.name ++ '[' :: (natChars n ++ [']']) from h]
        exact List.mem_append_right _ (List.mem_cons_self _ _)
      exact absurd (validBaseName_all h₁ _ this) (by decide)
  | pointer t ih =>
    intro t₂ h₁ h₂ h
    cases t₂ with
    | base s' =>
      have : '*' ∈ s' := by
        rw [show s' = t.name ++ ['*'] from h.symm]
        exact List.mem_append_right _ (List.mem_cons_self _ _)
      exact absurd (validBaseName_all h₂ _ this) (by decide)
    | pointer t' =>
      have h₁' : t.valid = true := h₁
      have h₂' : t'.valid = true := h₂
      have h3 := (List.append_inj' h rfl).1
      exact congrArg Ty.pointer (ih h₁' h₂' h3)
    | array n t' =>
      have h4 : (Ty.pointer t).name.getLast? = some '*' := by
        show (t.name ++ ['*']).getLast? = some '*'
        rw [List.getLast?_concat]
      have h5 : (Ty.array n t').name.getLast? = some ']' := by
        have e : (Ty.array n t').name = (t'.name ++ '[' :: natChars n) ++ [']'] := by
          simp [Ty.name, List.append_assoc]
        rw [e, List.getLast?_concat]
      rw [h, h5] at h4
      cases h4
  | array n t ih =>
    intro t₂ h₁ h₂ h
    cases t₂ with
    | base s' =>
      have : '[' ∈ s' := by
        rw [show s' = t.name ++ '[' :: (natChars n ++ [']']) from h.symm]
        exact List.mem_append_right _ (List.mem_cons_self _ _)
      exact absurd (validBaseName_all h₂ _ this) (by decide)
    | pointer t' =>
      have h4 : (Ty.pointer t').name.getLast? = some '*' := by
        show (t'.name ++ ['*']).getLast? = some '*'
        rw [List.getLast?_concat]
      have h5 : (Ty.array n t).name.getLast? = some ']' := by
        have e : (Ty.array n t).name = (t.name ++ '[' :: natChars n) ++ [']'] := by
          simp [Ty.name, List.append_assoc]
        rw [e, List.getLast?_concat]
      rw [← h, h5] at h4
      cases h4
    | array m t' =>
      have h₁' : t.valid = true := h₁
      have h₂' : t'.valid = true := h₂
      have e1 : (Ty.array n t).name = (t.name ++ '[' :: natChars n) ++ [']'] := by
        simp [Ty.name, List.append_assoc]
      have e2 : (Ty.array m t').name = (t'.name ++ '[' :: natChars m) ++ [']'] := by
        simp [Ty.name, List.append_assoc]
      have h3 : (t.name ++ '[' :: natChars n) ++ [']']
          = (t'.name ++ '[' :: natChars m) ++ [']'] := by
        rw [← e1, ← e2, h]
      have h4 := (List.append_inj' h3 rfl).1
      obtain ⟨h5, h6⟩ := append_bracket_inj bracket_not_mem_natChars
        bracket_not_mem_natChars h4
      rw [ih h₁' h₂' h5, natChars_inj h6]

theorem pushPtr_ne_nil (ms : List Modifier) : pushPtr ms ≠ [] := by
  match ms with
  | [] => simp [pushPtr]
  | [m] =>
    unfold pushPtr
    cases m.category <;> simp
  | m :: m' :: tl => simp [pushPtr]

theorem pushPtr_cons {L : List Modifier} (m : Modifier) (h : L ≠ []) :
    pushPtr (m :: L) = m :: pushPtr L := by
  cases L with
  | nil => exact absurd rfl h
  | cons a tl => rfl

theorem pushPtr_append {a b : List Modifier} (hb : b ≠ []) :
    pushPtr (a ++ b) = a ++ pushPtr b := by
  induction a with
  | nil => rfl
  | cons m tl ih =>
    rw [List.cons_append, pushPtr_cons m (by simp [hb]), ih, List.cons_append]

@[simp]
theorem suffixDFA_nil_normal (acc : List Modifier) :
    suffixDFA [] ParseState.normal acc = some acc := rfl

@[simp]
theorem suffixDFA_nil_bracket (d : Option Nat) (acc : List Modifier) :
    suffixDFA [] (ParseState.bracket d) acc = none := rfl

@[simp]
theorem suffixDFA_star (cs : List Char) (acc : List Modifier) :
    suffixDFA ('*' :: cs) ParseState.normal acc
      = suffixDFA cs ParseState.normal (pushPtr acc) := by
  simp [suffixDFA]

@[simp]
theorem suffixDFA_open (cs : List Char) (acc : List Modifier) :
    suffixDFA ('[' :: cs) ParseState.normal acc
      = suffixDFA cs (ParseState.bracket none) acc := by
  simp [suffixDFA]

theorem suffixDFA_other {c : Char} (h1 : c ≠ '*') (h2 : c ≠ '[')
    (cs : List Char) (acc : List Modifier) :
    suffixDFA (c :: cs) ParseState.normal acc = none := by
  simp [suffixDFA, h1, h2]

theorem suffixDFA_digit {c : Char} (h : c.isDigit = true) (cs : List Char)
    (d : Option Nat) (acc : List Modifier) :
    suffixDFA (c :: cs) (ParseState.bracket d) acc
      = suffixDFA cs (ParseState.bracket (some (10 * d.getD 0 + charVal c))) acc := by
  simp [suffixDFA, h]

@[simp]
theorem suffixDFA_close_some (cs : List Char) (n : Nat) (acc : List Modifier) :
    suffixDFA (']' :: cs) (ParseState.bracket (some n)) acc
      = suffixDFA cs ParseState.normal (acc ++ [⟨Category.array, n⟩]) := by
  simp [suffixDFA, (by decide : ((']' : Char).isDigit = true) = False)]

@[simp]
theorem suffixDFA_close_none (cs : List Char) (acc : List Modifier) :
    suffixDFA (']' :: cs) (ParseState.bracket none) acc = none := by
  simp [suffixDFA, (by decide : ((']' : Char).isDigit = true) = False)]

theorem suffixDFA_bad_bracket_char {c : Char} (h1 : c.isDigit = false) (h2 : c ≠ ']')
    (cs : List Char) (d : Option Nat) (acc : List Modifier) :
    suffixDFA (c :: cs) (ParseState.bracket d) acc = none := by
  simp [suffixDFA, h1, h2]

theorem suffixDFA_acc_append (s : List Char) :
    ∀ (st : ParseState) (acc₁ acc₂ : List Modifier), acc₂ ≠ [] →
      suffixDFA s st (acc₁ ++ acc₂)
        = (suffixDFA s st acc₂).map (fun x => acc₁ ++ x) := by
  induction s with
  | nil =>
    intro st acc₁ acc₂ h
    cases st with
    | normal => simp
    | bracket d => simp
  | cons c cs ih =>
    intro st acc₁ acc₂ h
    cases st with
    | normal =>
      by_cases hc : c = '*'
      · subst hc
        rw [suffixDFA_star, suffixDFA_star, pushPtr_append h,
          ih _ _ _ (pushPtr_ne_nil _)]
      · by_cases hc2 : c = '['
        · subst hc2
          rw [suffixDFA_open, suffixDFA_open, ih _ _ _ h]
        · rw [suffixDFA_other hc hc2, suffixDFA_other hc hc2]
          rfl
    | bracket d =>
      by_cases hd : c.isDigit = true
      · rw [suffixDFA_digit hd, suffixDFA_digit hd, ih _ _ _ h]
      · by_cases hc : c = ']'
        · subst hc
          cases d with
          | none => rw [suffixDFA_close_none, suffixDFA_close_none]; rfl
          | some nn =>
            rw [suffixDFA_close_some, suffixDFA_close_some, List.append_assoc]
            exact ih _ _ _ (by simp)
        · rw [suffixDFA_bad_bracket_char (by simp [hd]) hc,
            suffixDFA_bad_bracket_char (by simp [hd]) hc]
          rfl

theorem suffixDFA_bracket_acc (cs : List Char) :
    ∀ (d : Option Nat) (acc : List Modifier),
      suffixDFA cs (ParseState.bracket d) acc
        = (suffixDFA cs (ParseState.bracket d) []).map (fun x => acc ++ x) := by
  induction cs with
  | nil => intro d acc; simp
  | cons c cs ih =>
    intro d acc
    by_cases hd : c.isDigit = true
    · rw [suffixDFA_digit hd, suffixDFA_digit hd]
      exact ih _ _
    · by_cases hc : c = ']'
      · subst hc
        cases d with
        | none => rw [suffixDFA_close_none, suffixDFA_close_none]; rfl
        | some nn =>
          rw [suffixDFA_close_some, suffixDFA_close_some]
          have h1 := suffixDFA_acc_append cs ParseState.normal acc
            [⟨Category.array, nn⟩] (by simp)
          rw [h1, List.nil_append]
      · rw [suffixDFA_bad_bracket_char (by simp [hd]) hc,
          suffixDFA_bad_bracket_char (by simp [hd]) hc]
        rfl

theorem suffixDFA_single_acc (s : List Char) (m : Modifier)
    (h : m.category = Category.array ∨ s.head? ≠ some '*') :
    suffixDFA s ParseState.normal [m]
      = (suffixDFA s ParseState.normal []).map (fun x => m :: x) := by
  cases s with
  | nil => simp
  | cons c cs =>
    by_cases hc : c = '*'
    · subst hc
      have hm : m.category = Category.array := by
        rcases h with h | h
        · exact h
        · exact absurd rfl h
      have hp : pushPtr [m] = [m] ++ [⟨Category.pointer, 1⟩] := by
        obtain ⟨cat, sz⟩ := m
        cases cat with
        | pointer => exact Category.noConfusion hm
        | array => rfl
      rw [suffixDFA_star, suffixDFA_star, hp,
        suffixDFA_acc_append cs ParseState.normal [m] [⟨Category.pointer, 1⟩] (by simp)]
      have hp0 : pushPtr ([] : List Modifier) = [⟨Category.pointer, 1⟩] := rfl
      rw [hp0]
      simp
    · by_cases hc2 : c = '['
      · subst hc2
        rw [suffixDFA_open, suffixDFA_open, suffixDFA_bracket_acc cs none [m],
          suffixDFA_bracket_acc cs none []]
        simp
      · rw [suffixDFA_other hc hc2, suffixDFA_other hc hc2]
        rfl

theorem stars_run (k : Nat) :
    ∀ (rest : List Char) (acc : List Modifier),
      suffixDFA (List.replicate k '*' ++ rest) ParseState.normal acc
        = suffixDFA rest ParseState.normal (pushPtrN k acc) := by
  induction k with
  | zero => intro rest acc; rfl
  | succ k ih =>
    intro rest acc
    rw [List.replicate_succ, List.cons_append, suffixDFA_star]
    exact ih rest (pushPtr acc)

theorem pushPtrN_ptr (k : Nat) :
    ∀ j, pushPtrN k [⟨Category.pointer, j⟩] = [⟨Category.pointer, j + k⟩] := by
  induction k with
  | zero => intro j; rfl
  | succ k ih =>
    intro j
    show pushPtrN k (pushPtr [⟨Category.pointer, j⟩]) = _
    have h1 : pushPtr [⟨Category.pointer, j⟩] = [⟨Category.pointer, j + 1⟩] := rfl
    rw [h1, ih (j + 1)]
    have : j + 1 + k = j + (k + 1) := by omega
    rw [this]

theorem pushPtrN_nil {k : Nat} (h : 1 ≤ k) :
    pushPtrN k [] = [⟨Category.pointer, k⟩] := by
  cases k with
  | zero => omega
  | succ k =>
    show pushPtrN k (pushPtr []) = _
    have h1 : pushPtr ([] : List Modifier) = [⟨Category.pointer, 1⟩] := rfl
    rw [h1, pushPtrN_ptr k 1]
    have : 1 + k = k + 1 := by omega
    rw [this]

theorem parseSuffix_stars {k : Nat} {rest : List Char} (hk : 1 ≤ k)
    (hr : rest.head? ≠ some '*') :
    parseSuffix (List.replicate k '*' ++ rest)
      = (parseSuffix rest).map (fun ms => ⟨Category.pointer, k⟩ :: ms) := by
  unfold parseSuffix
  rw [stars_run k rest [], pushPtrN_nil hk]
  exact suffixDFA_single_acc rest ⟨Category.pointer, k⟩ (Or.inr hr)

theorem digits_run (ds : List Char) :
    ∀ (v : Nat) (rest : List Char) (acc : List Modifier),
      (∀ c ∈ ds, c.isDigit = true) →
      suffixDFA (ds ++ ']' :: rest) (ParseState.bracket (some v)) acc
        = suffixDFA rest ParseState.normal
            (acc ++ [⟨Category.array, ds.foldl (fun a c => 10 * a + charVal c) v⟩]) := by
  induction ds with
  | nil =>
    intro v rest acc _
    rw [List.nil_append, suffixDFA_close_some, List.foldl_nil]
  | cons d tl ih =>
    intro v rest acc h
    have hd := h d (List.mem_cons_self _ _)
    rw [List.cons_append, suffixDFA_digit hd, List.foldl_cons]
    exact ih _ _ _ (fun c hc => h c (List.mem_cons_of_mem _ hc))

theorem parseSuffix_bracket {ds rest : List Char} (hne : ds ≠ [])
    (hd : ∀ c ∈ ds, c.isDigit = true) :
    parseSuffix ('[' :: (ds ++ ']' :: rest))
      = (parseSuffix rest).map (fun ms => ⟨Category.array, val ds⟩ :: ms) := by
  cases ds with
  | nil => exact absurd rfl hne
  | cons d₀ tl =>
    have hd₀ := hd d₀ (List.mem_cons_self _ _)
    unfold parseSuffix
    rw [suffixDFA_open, List.cons_append, suffixDFA_digit hd₀]
    rw [show (10 * Option.getD none 0 + charVal d₀) = 10 * 0 + charVal d₀ from rfl]
    rw [digits_run tl (10 * 0 + charVal d₀) rest []
      (fun c hc => hd c (List.mem_cons_of_mem _ hc))]
    rw [List.nil_append]
    have hval : tl.foldl (fun a c => 10 * a + charVal c) (10 * 0 + charVal d₀)
        = val (d₀ :: tl) := rfl
    rw [hval]
    exact suffixDFA_single_acc rest ⟨Category.array, val (d₀ :: tl)⟩ (Or.inl rfl)

theorem parseSuffix_nil : parseSuffix [] = some [] := rfl

theorem parseSuffix_stray {c : Char} {cs : List Char} (h1 : c ≠ '*') (h2 : c ≠ '[') :
    parseSuffix (c :: cs) = none := by
  unfold parseSuffix
  rw [suffixDFA_other h1 h2]

theorem digits_no_close (ds : List Char) :
    ∀ (d : Option Nat) (acc : List Modifier), (∀ c ∈ ds, c.isDigit = true) →
      suffixDFA ds (ParseState.bracket d) acc = none := by
  induction ds with
  | nil => intro d acc _; rfl
  | cons c cs ih =>
    intro d acc h
    have hc := h c (List.mem_cons_self _ _)
    rw [suffixDFA_digit hc]
    exact ih _ _ (fun x hx => h x (List.mem_cons_of_mem _ hx))

theorem parseSuffix_unclosed {ds : List Char} (hd : ∀ c ∈ ds, c.isDigit = true) :
    parseSuffix ('[' :: ds) = none := by
  unfold parseSuffix
  rw [suffixDFA_open]
  exact digits_no_close ds none [] hd

theorem parseSuffix_bad_bracket {c : Char} {cs : List Char}
    (h1 : c.isDigit = false) (h2 : c ≠ ']') :
    parseSuffix ('[' :: c :: cs) = none := by
  unfold parseSuffix
  rw [suffixDFA_open, suffixDFA_bad_bracket_char h1 h2]

theorem parseSuffix_empty_bracket {cs : List Char} :
    parseSuffix ('[' :: ']' :: cs) = none := by
  unfold parseSuffix
  rw [suffixDFA_open, suffixDFA_close_none]

theorem suffixDFA_append_star (s : List Char) :
    ∀ st acc, suffixDFA (s ++ ['*']) st acc = (suffixDFA s st acc).map pushPtr := by
  induction s with
  | nil =>
    intro st acc
    cases st with
    | normal => simp
    | bracket d =>
      rw [List.nil_append,
        suffixDFA_bad_bracket_char (by decide) (by decide) [] d acc]
      rfl
  | cons c cs ih =>
    intro st acc
    cases st with
    | normal =>
      by_cases hc : c = '*'
      · subst hc
        rw [List.cons_append, suffixDFA_star, suffixDFA_star]
        exact ih _ _
      · by_cases hc2 : c = '['
        · subst hc2
          rw [List.cons_append, suffixDFA_open, suffixDFA_open]
          exact ih _ _
        · rw [List.cons_append, suffixDFA_other hc hc2, suffixDFA_other hc hc2]
          rfl
    | bracket d =>
      by_cases hd : c.isDigit = true
      · rw [List.cons_append, suffixDFA_digit hd, suffixDFA_digit hd]
        exact ih _ _
      · by_cases hc : c = ']'
        · subst hc
          cases d with
          | none =>
            rw [List.cons_append, suffixDFA_close_none, suffixDFA_close_none]
            rfl
          | some nn =>
            rw [List.cons_append, suffixDFA_close_some, suffixDFA_close_some]
            exact ih _ _
        · rw [List.cons_append, suffixDFA_bad_bracket_char (by simp [hd]) hc,
            suffixDFA_bad_bracket_char (by simp [hd]) hc]
          rfl

theorem suffixDFA_append_bracket (s : List Char) (n : Nat) :
    ∀ st acc, suffixDFA (s ++ ('[' :: (natChars n ++ [']']))) st acc
      = (suffixDFA s st acc).map (fun ms => ms ++ [⟨Category.array, n⟩]) := by
  induction s with
  | nil =>
    intro st acc
    cases st with
    | normal =>
      rcases hnc : natChars n with _ | ⟨d₀, tl⟩
      · exact absurd hnc natChars_ne_nil
      · have hd₀ : d₀.isDigit = true := by
          have h0 := @natChars_digits n d₀
          rw [hnc] at h0
          exact h0 (List.mem_cons_self _ _)
        rw [List.nil_append, suffixDFA_open, List.cons_append,
          suffixDFA_digit hd₀]
        rw [show (10 * Option.getD none 0 + charVal d₀) = 10 * 0 + charVal d₀ from rfl]
        rw [digits_run tl (10 * 0 + charVal d₀) [] acc
          (fun c hc => by
            have h0 := @natChars_digits n c
            rw [hnc] at h0
            exact h0 (List.mem_cons_of_mem _ hc))]
        have hval : tl.foldl (fun a c => 10 * a + charVal c) (10 * 0 + charVal d₀)
            = val (d₀ :: tl) := rfl
        rw [hval, ← hnc, val_natChars n]
        rfl
    | bracket d =>
      rw [List.nil_append,
        suffixDFA_bad_bracket_char (by decide) (by decide) _ d acc]
      rfl
  | cons c cs ih =>
    intro st acc
    cases st with
    | normal =>
      by_cases hc : c = '*'
      · subst hc
        rw [List.cons_append, suffixDFA_star, suffixDFA_star]
        exact ih _ _
      · by_cases hc2 : c = '['
        · subst hc2
          rw [List.cons_append, suffixDFA_open, suffixDFA_open]
          exact ih _ _
        · rw [List.cons_append, suffixDFA_other hc hc2, suffixDFA_other hc hc2]
          rfl
    | bracket d =>
      by_cases hd : c.isDigit = true
      · rw [List.cons_append, suffixDFA_digit hd, suffixDFA_digit hd]
        exact ih _ _
      · by_cases hcc : c = ']'
        · subst hcc
          cases d with
          | none =>
            rw [List.cons_append, suffixDFA_close_none, suffixDFA_close_none]
            rfl
          | some nn =>
            rw [List.cons_append, suffixDFA_close_some, suffixDFA_close_some]
            exact ih _ _
        · rw [List.cons_append, suffixDFA_bad_bracket_char (by simp [hd]) hcc,
            suffixDFA_bad_bracket_char (by simp [hd]) hcc]
          rfl

theorem parseSuffix_suffixChars {t : Ty} :
    parseSuffix t.suffixChars = some t.canonMods := by
  induction t with
  | base s => rfl
  | pointer t ih =>
    show suffixDFA (t.suffixChars ++ ['*']) ParseState.normal [] = _
    rw [suffixDFA_append_star]
    show (parseSuffix t.suffixChars).map pushPtr = _
    rw [ih]
    rfl
  | array n t ih =>
    show suffixDFA (t.suffixChars ++ ('[' :: (natChars n ++ [']'])))
      ParseState.normal [] = _
    rw [suffixDFA_append_bracket]
    show (parseSuffix t.suffixChars).map _ = _
    rw [ih]
    rfl

theorem iterPtr_succ_out (k : Nat) : ∀ t, iterPtr (k + 1) t = Ty.pointer (iterPtr k t) := by
  induction k with
  | zero => intro t; rfl
  | succ k ih =>
    intro t
    show iterPtr (k + 1) (Ty.pointer t) = _
    rw [ih (Ty.pointer t)]
    rfl

theorem applyMods_append_arr (ms : List Modifier) (n : Nat) :
    ∀ b, Ty.applyMods b (ms ++ [⟨Category.array, n⟩]) = Ty.array n (Ty.applyMods b ms) := by
  induction ms with
  | nil => intro b; rfl
  | cons m tl ih =>
    intro b
    rw [List.cons_append]
    exact ih _

theorem applyMods_pushPtr (ms : List Modifier) :
    ∀ b, Ty.applyMods b (pushPtr ms) = Ty.pointer (Ty.applyMods b ms) := by
  match ms with
  | [] => intro b; rfl
  | [m] =>
    intro b
    obtain ⟨cat, sz⟩ := m
    cases cat with
    | pointer => exact iterPtr_succ_out sz b
    | array => rfl
  | m :: m' :: tl =>
    intro b
    show Ty.applyMods _ (pushPtr (m' :: tl)) = _
    exact applyMods_pushPtr (m' :: tl) _

theorem applyMods_canonMods (t : Ty) :
    Ty.applyMods (Ty.base t.root) t.canonMods = t := by
  induction t with
  | base s => rfl
  | pointer t ih =>
    show Ty.applyMods (Ty.base t.root) (pushPtr t.canonMods) = _
    rw [applyMods_pushPtr, ih]
  | array n t ih =>
    show Ty.applyMods (Ty.base t.root) (t.canonMods ++ [⟨Category.array, n⟩]) = _
    rw [applyMods_append_arr, ih]

theorem isComp_trans {a b c : Ty} (h1 : IsComp a b) (h2 : IsComp b c) : IsComp a c := by
  induction h2 with
  | refl => exact h1
  | ptr _ ih => exact IsComp.ptr ih
  | arr n _ ih => exact IsComp.arr n ih

theorem isComp_iterPtr (k : Nat) : ∀ t, IsComp t (iterPtr k t) := by
  induction k with
  | zero => intro t; exact IsComp.refl t
  | succ k ih =>
    intro t
    exact isComp_trans (IsComp.ptr (IsComp.refl t)) (ih (Ty.pointer t))

theorem isComp_applyMods (ms : List Modifier) : ∀ t, IsComp t (Ty.applyMods t ms) := by
  induction ms with
  | nil => intro t; exact IsComp.refl t
  | cons m tl ih =>
    intro t
    refine isComp_trans ?_ (ih _)
    obtain ⟨cat, sz⟩ := m
    cases cat with
    | pointer => exact isComp_iterPtr sz t
    | array => exact IsComp.arr sz (IsComp.refl t)

theorem root_iterPtr (k : Nat) : ∀ t, (iterPtr k t).root = t.root := by
  induction k with
  | zero => intro t; rfl
  | succ k ih =>
    intro t
    show (iterPtr k (Ty.pointer t)).root = t.root
    rw [ih (Ty.pointer t)]
    rfl

theorem root_applyMods (ms : List Modifier) :
    ∀ t, (Ty.applyMods t ms).root = t.root := by
  induction ms with
  | nil => intro t; rfl
  | cons m tl ih =>
    intro t
    obtain ⟨cat, sz⟩ := m
    cases cat with
    | pointer =>
      show (Ty.applyMods (iterPtr sz t) tl).root = t.root
      rw [ih (iterPtr sz t), root_iterPtr sz t]
    | array =>
      show (Ty.applyMods (Ty.array sz t) tl).root = t.root
      rw [ih (Ty.array sz t)]
      rfl

theorem valid_iterPtr (k : Nat) : ∀ {t : Ty}, t.valid = true → (iterPtr k t).valid = true := by
  induction k with
  | zero => intro t h; exact h
  | succ k ih =>
    intro t h
    show (iterPtr k (Ty.pointer t)).valid = true
    exact ih h

@[simp]
theorem assoc_nil {α : Type} (n : List Char) :
    assoc ([] : List (List Char × α)) n = none := rfl

theorem assoc_cons {α : Type} (k : List Char) (v : α) (tl : List (List Char × α))
    (n : List Char) :
    assoc ((k, v) :: tl) n = if k = n then some v else assoc tl n := rfl

theorem assoc_eq_none {α : Type} :
    ∀ (l : List (List Char × α)) (n : List Char),
      assoc l n = none ↔ n ∉ l.map Prod.fst := by
  intro l n
  induction l with
  | nil => exact ⟨fun _ => List.not_mem_nil n, fun _ => rfl⟩
  | cons e tl ih =>
    obtain ⟨k, v⟩ := e
    by_cases h : k = n
    · subst h
      rw [assoc_cons, if_pos rfl]
      constructor
      · intro hh; cases hh
      · intro hh
        exfalso
        apply hh
        rw [List.map_cons]
        exact List.mem_cons_self _ _
    · rw [assoc_cons, if_neg h]
      simp only [List.map_cons, List.mem_cons]
      rw [ih]
      constructor
      · rintro hh (rfl | hmem)
        · exact h rfl
        · exact hh hmem
      · intro hh hmem
        exact hh (Or.inr hmem)

theorem assoc_mem {α : Type} :
    ∀ {l : List (List Char × α)} {n : List Char} {v : α},
      assoc l n = some v → (n, v) ∈ l := by
  intro l
  induction l with
  | nil => intro n v h; cases h
  | cons e tl ih =>
    intro n v h
    obtain ⟨k, w⟩ := e
    by_cases hk : k = n
    · subst hk
      rw [assoc_cons, if_pos rfl] at h
      obtain rfl : w = v := by injection h
      exact List.mem_cons_self _ _
    · rw [assoc_cons, if_neg hk] at h
      exact List.mem_cons_of_mem _ (ih h)

theorem assoc_of_mem_nodup {α : Type} :
    ∀ {l : List (List Char × α)} {n : List Char} {v : α},
      (n, v) ∈ l → (l.map Prod.fst).Nodup → assoc l n = some v := by
  intro l
  induction l with
  | nil => intro n v h _; cases h
  | cons e tl ih =>
    intro n v h hnd
    obtain ⟨k, w⟩ := e
    rcases List.mem_cons.mp h with h1 | h1
    · injection h1 with h1a h1b
      subst h1a
      subst h1b
      rw [assoc_cons, if_pos rfl]
    · have hk : k ≠ n := by
        intro hkn
        subst hkn
        have : k ∈ tl.map Prod.fst := List.mem_map.mpr ⟨(k, v), h1, rfl⟩
        exact (List.nodup_cons.mp hnd).1 this
      rw [assoc_cons, if_neg hk]
      exact ih h1 (List.nodup_cons.mp hnd).2

theorem assoc_isSome_cons {α : Type} {l : List (List Char × α)} {n : List Char}
    (k : List Char) (v : α) (h : (assoc l n).isSome = true) :
    (assoc ((k, v) :: l) n).isSome = true := by
  by_cases hk : k = n
  · subst hk
    rw [assoc_cons, if_pos rfl]
    rfl
  · rw [assoc_cons, if_neg hk]
    exact h

theorem get_of_types {r : Registry} {n : List Char} {t : Ty}
    (h : assoc r.types n = some t) : r.get n = some t := by
  unfold Registry.get
  rw [h]

theorem pointer_name_not_base (cur : Ty) :
    validBaseName (Ty.pointer cur).name = false := by
  by_contra hh
  rw [Bool.not_eq_false] at hh
  have hmem : '*' ∈ (Ty.pointer cur).name := by
    show '*' ∈ cur.name ++ ['*']
    exact List.mem_append_right _ (List.mem_cons_self _ _)
  exact absurd (validBaseName_all hh _ hmem) (by decide)

theorem array_name_not_base (n : Nat) (cur : Ty) :
    validBaseName (Ty.array n cur).name = false := by
  by_contra hh
  rw [Bool.not_eq_false] at hh
  have hmem : '[' ∈ (Ty.array n cur).name := by
    show '[' ∈ cur.name ++ '[' :: (natChars n ++ [']'])
    exact List.mem_append_right _ (List.mem_cons_self _ _)
  exact absurd (validBaseName_all hh _ hmem) (by decide)

theorem alias_miss_of_not_base {r : Registry} {n : List Char} (hwf : r.wf)
    (h : validBaseName n = false) : assoc r.aliases n = none := by
  cases ha : assoc r.aliases n with
  | none => rfl
  | some c =>
    have hm := assoc_mem ha
    have hv := (hwf.2.2.2.2 _ hm).1
    rw [h] at hv
    cases hv

theorem get_not_base {r : Registry} {n : List Char} (hwf : r.wf)
    (h : validBaseName n = false) : r.get n = assoc r.types n := by
  unfold Registry.get
  cases ht : assoc r.types n with
  | some t => rfl
  | none => rw [alias_miss_of_not_base hwf h]

theorem get_some_spec {r : Registry} {n : List Char} {t : Ty} (hwf : r.wf)
    (h : r.get n = some t) : (t.name, t) ∈ r.types ∧ t.valid = true := by
  unfold Registry.get at h
  cases ht : assoc r.types n with
  | some u =>
    rw [ht] at h
    have hut : u = t := by injection h
    have hm := assoc_mem ht
    rw [hut] at hm
    have hk : n = t.name := hwf.2.1 _ hm
    rw [hk] at hm
    exact ⟨hm, hwf.2.2.1 _ hm⟩
  | none =>
    rw [ht] at h
    cases ha : assoc r.aliases n with
    | none => rw [ha] at h; cases h
    | some c =>
      rw [ha] at h
      have hm := assoc_mem h
      have hk : c = t.name := hwf.2.1 _ hm
      rw [hk] at hm
      exact ⟨hm, hwf.2.2.1 _ hm⟩

theorem get_none_iff {r : Registry} {n : List Char} (hwf : r.wf) :
    r.get n = none ↔ assoc r.types n = none ∧ assoc r.aliases n = none := by
  unfold Registry.get
  cases ht : assoc r.types n with
  | some u =>
    constructor
    · intro h; exact Option.noConfusion h
    · intro h; exact Option.noConfusion h.1
  | none =>
    cases ha : assoc r.aliases n with
    | none => exact ⟨fun _ => ⟨rfl, rfl⟩, fun _ => rfl⟩
    | some c =>
      have hs := (hwf.2.2.2.2 _ (assoc_mem ha)).2
      constructor
      · intro h
        have h2 : assoc r.types c = none := h
        rw [h2] at hs
        cases hs
      · intro h
        exact Option.noConfusion h.2

theorem wrap_spec {reg : Registry} {cur w : Ty} (hwf : reg.wf)
    (hmem : (cur.name, cur) ∈ reg.types)
    (hw : w = Ty.pointer cur ∨ ∃ n, w = Ty.array n cur) :
    (TypeBuilder.wrap ⟨reg, cur⟩ w).m_type = w
    ∧ (TypeBuilder.wrap ⟨reg, cur⟩ w).m_registry.wf
    ∧ (w.name, w) ∈ (TypeBuilder.wrap ⟨reg, cur⟩ w).m_registry.types
    ∧ reg.types.IsSuffix (TypeBuilder.wrap ⟨reg, cur⟩ w).m_registry.types
    ∧ (TypeBuilder.wrap ⟨reg, cur⟩ w).m_registry.aliases = reg.aliases
    ∧ ∀ e ∈ (TypeBuilder.wrap ⟨reg, cur⟩ w).m_registry.types,
        e ∈ reg.types ∨ e = (w.name, w) := by
  have hcv : cur.valid = true := hwf.2.2.1 _ hmem
  have hwv : w.valid = true := by
    rcases hw with rfl | ⟨n, rfl⟩
    · exact hcv
    · exact hcv
  have hwb : validBaseName w.name = false := by
    rcases hw with rfl | ⟨n, rfl⟩
    · exact pointer_name_not_base cur
    · exact array_name_not_base n cur
  unfold TypeBuilder.wrap
  rw [show (⟨reg, cur⟩ : TypeBuilder).m_registry = reg from rfl]
  rw [get_not_base hwf hwb]
  cases ht : assoc reg.types w.name with
  | some t' =>
    have hm := assoc_mem ht
    have hk : w.name = t'.name := hwf.2.1 _ hm
    have htv : t'.valid = true := hwf.2.2.1 _ hm
    have hew : t' = w := name_inj htv hwv hk.symm
    exact ⟨hew, hwf, hew ▸ hm, List.suffix_refl _, rfl, fun e he => Or.inl he⟩
  | none =>
    have hkeys : w.name ∉ reg.types.map Prod.fst := (assoc_eq_none _ _).mp ht
    obtain ⟨hnd, hkey, hval, hclo, hali⟩ := hwf
    refine ⟨rfl, ⟨?_, ?_, ?_, ?_, ?_⟩, List.mem_cons_self _ _,
      List.suffix_cons _ _, rfl, ?_⟩
    · rw [show (Registry.add reg w).types = (w.name, w) :: reg.types from rfl,
        List.map_cons]
      exact List.nodup_cons.mpr ⟨hkeys, hnd⟩
    · intro e he
      rcases List.mem_cons.mp he with rfl | he
      · rfl
      · exact hkey _ he
    · intro e he
      rcases List.mem_cons.mp he with rfl | he
      · exact hwv
      · exact hval _ he
    · intro e he s hs
      rcases List.mem_cons.mp he with rfl | he
      · have hsc : s = cur := by
          rcases hw with rfl | ⟨n, rfl⟩ <;> simpa [Ty.comps] using hs
        subst hsc
        exact List.mem_cons_of_mem _ hmem
      · exact List.mem_cons_of_mem _ (hclo _ he _ hs)
    · intro a ha
      exact ⟨(hali _ ha).1, assoc_isSome_cons _ _ (hali _ ha).2⟩
    · intro e he
      rcases List.mem_cons.mp he with rfl | he
      · exact Or.inr rfl
      · exact Or.inl he

theorem addPointer_spec (k : Nat) :
    ∀ (reg : Registry) (cur : Ty), reg.wf → (cur.name, cur) ∈ reg.types →
      (TypeBuilder.addPointer ⟨reg, cur⟩ k).m_type = iterPtr k cur
      ∧ (TypeBuilder.addPointer ⟨reg, cur⟩ k).m_registry.wf
      ∧ ((TypeBuilder.addPointer ⟨reg, cur⟩ k).m_type.name,
          (TypeBuilder.addPointer ⟨reg, cur⟩ k).m_type)
          ∈ (TypeBuilder.addPointer ⟨reg, cur⟩ k).m_registry.types
      ∧ reg.types.IsSuffix (TypeBuilder.addPointer ⟨reg, cur⟩ k).m_registry.types
      ∧ (TypeBuilder.addPointer ⟨reg, cur⟩ k).m_registry.aliases = reg.aliases
      ∧ ∀ e ∈ (TypeBuilder.addPointer ⟨reg, cur⟩ k).m_registry.types,
          e ∈ reg.types ∨ (e.1 = e.2.name ∧ e.2.valid = true ∧ e.2.root = cur.root
            ∧ validBaseName e.1 = false) := by
  induction k with
  | zero =>
    intro reg cur hwf hmem
    exact ⟨rfl, hwf, hmem, List.suffix_refl _, rfl, fun e he => Or.inl he⟩
  | succ k ih =>
    intro reg cur hwf hmem
    have hcv : cur.valid = true := hwf.2.2.1 _ hmem
    obtain ⟨hty, hwf', hmem', hsuf, hali, hchar⟩ := wrap_spec hwf hmem (Or.inl rfl)
    have hmem'' : ((TypeBuilder.wrap ⟨reg, cur⟩ (Ty.pointer cur)).m_type.name,
        (TypeBuilder.wrap ⟨reg, cur⟩ (Ty.pointer cur)).m_type)
        ∈ (TypeBuilder.wrap ⟨reg, cur⟩ (Ty.pointer cur)).m_registry.types := by
      rw [hty]
      exact hmem'
    obtain ⟨i1, i2, i3, i4, i5, i6⟩ :=
      ih (TypeBuilder.wrap ⟨reg, cur⟩ (Ty.pointer cur)).m_registry
        (TypeBuilder.wrap ⟨reg, cur⟩ (Ty.pointer cur)).m_type hwf' hmem''
    have hstep : TypeBuilder.addPointer ⟨reg, cur⟩ (k + 1)
        = TypeBuilder.addPointer
            ⟨(TypeBuilder.wrap ⟨reg, cur⟩ (Ty.pointer cur)).m_registry,
              (TypeBuilder.wrap ⟨reg, cur⟩ (Ty.pointer cur)).m_type⟩ k := rfl
    rw [hstep]
    refine ⟨?_, i2, i3, ?_, ?_, ?_⟩
    · rw [i1, hty]
      rfl
    · exact List.IsSuffix.trans hsuf i4
    · rw [i5, hali]
    · intro e he
      rcases i6 e he with he' | hp
      · rcases hchar e he' with he'' | rfl
        · exact Or.inl he''
        · exact Or.inr ⟨rfl, hcv, rfl, pointer_name_not_base cur⟩
      · refine Or.inr ⟨hp.1, hp.2.1, ?_, hp.2.2.2⟩
        rw [hp.2.2.1, hty]
        rfl

theorem applyModifier_spec (m : Modifier) (reg : Registry) (cur : Ty)
    (hwf : reg.wf) (hmem : (cur.name, cur) ∈ reg.types) :
    (TypeBuilder.applyModifier ⟨reg, cur⟩ m).m_type = Ty.applyMods cur [m]
    ∧ (TypeBuilder.applyModifier ⟨reg, cur⟩ m).m_registry.wf
    ∧ ((TypeBuilder.applyModifier ⟨reg, cur⟩ m).m_type.name,
        (TypeBuilder.applyModifier ⟨reg, cur⟩ m).m_type)
        ∈ (TypeBuilder.applyModifier ⟨reg, cur⟩ m).m_registry.types
    ∧ reg.types.IsSuffix (TypeBuilder.applyModifier ⟨reg, cur⟩ m).m_registry.types
    ∧ (TypeBuilder.applyModifier ⟨reg, cur⟩ m).m_registry.aliases = reg.aliases
    ∧ ∀ e ∈ (TypeBuilder.applyModifier ⟨reg, cur⟩ m).m_registry.types,
        e ∈ reg.types ∨ (e.1 = e.2.name ∧ e.2.valid = true ∧ e.2.root = cur.root
          ∧ validBaseName e.1 = false) := by
  have hcv : cur.valid = true := hwf.2.2.1 _ hmem
  obtain ⟨cat, sz⟩ := m
  cases cat with
  | pointer => exact addPointer_spec sz reg cur hwf hmem
  | array =>
    obtain ⟨hty, hwf', hmem', hsuf, hali, hchar⟩ :=
      wrap_spec hwf hmem (Or.inr ⟨sz, rfl⟩)
    have hunf : TypeBuilder.applyModifier ⟨reg, cur⟩ ⟨Category.array, sz⟩
        = TypeBuilder.wrap ⟨reg, cur⟩ (Ty.array sz cur) := rfl
    rw [hunf]
    refine ⟨hty, hwf', ?_, hsuf, hali, ?_⟩
    · rw [hty]
      exact hmem'
    · intro e he
      rcases hchar e he with he' | rfl
      · exact Or.inl he'
      · exact Or.inr ⟨rfl, hcv, rfl, array_name_not_base sz cur⟩

theorem applyAll_spec (ms : List Modifier) :
    ∀ (reg : Registry) (cur : Ty), reg.wf → (cur.name, cur) ∈ reg.types →
      (TypeBuilder.applyAll ⟨reg, cur⟩ ms).m_type = Ty.applyMods cur ms
      ∧ (TypeBuilder.applyAll ⟨reg, cur⟩ ms).m_registry.wf
      ∧ ((TypeBuilder.applyAll ⟨reg, cur⟩ ms).m_type.name,
          (TypeBuilder.applyAll ⟨reg, cur⟩ ms).m_type)
          ∈ (TypeBuilder.applyAll ⟨reg, cur⟩ ms).m_registry.types
      ∧ reg.types.IsSuffix (TypeBuilder.applyAll ⟨reg, cur⟩ ms).m_registry.types
      ∧ (TypeBuilder.applyAll ⟨reg, cur⟩ ms).m_registry.aliases = reg.aliases
      ∧ ∀ e ∈ (TypeBuilder.applyAll ⟨reg, cur⟩ ms).m_registry.types,
          e ∈ reg.types ∨ (e.1 = e.2.name ∧ e.2.valid = true ∧ e.2.root = cur.root
            ∧ validBaseName e.1 = false) := by
  induction ms with
  | nil =>
    intro reg cur hwf hmem
    exact ⟨rfl, hwf, hmem, List.suffix_refl _, rfl, fun e he => Or.inl he⟩
  | cons m tl ih =>
    intro reg cur hwf hmem
    obtain ⟨j1, j2, j3, j4, j5, j6⟩ := applyModifier_spec m reg cur hwf hmem
    obtain ⟨i1, i2, i3, i4, i5, i6⟩ :=
      ih (TypeBuilder.applyModifier ⟨reg, cur⟩ m).m_registry
        (TypeBuilder.applyModifier ⟨reg, cur⟩ m).m_type j2 j3
    have hstep : TypeBuilder.applyAll ⟨reg, cur⟩ (m :: tl)
        = TypeBuilder.applyAll
            ⟨(TypeBuilder.applyModifier ⟨reg, cur⟩ m).m_registry,
              (TypeBuilder.applyModifier ⟨reg, cur⟩ m).m_type⟩ tl := rfl
    rw [hstep]
    refine ⟨?_, i2, i3, ?_, ?_, ?_⟩
    · rw [i1, j1]
      rfl
    · exact List.IsSuffix.trans j4 i4
    · rw [i5, j5]
    · intro e he
      rcases i6 e he with he' | hp
      · rcases j6 e he' with he'' | hp'
        · exact Or.inl he''
        · exact Or.inr hp'
      · refine Or.inr ⟨hp.1, hp.2.1, ?_, hp.2.2.2⟩
        rw [hp.2.2.1, j1, root_applyMods]

theorem wrap_of_mem {reg : Registry} (cur : Ty) {w : Ty}
    (hnd : (reg.types.map Prod.fst).Nodup) (hmem : (w.name, w) ∈ reg.types) :
    TypeBuilder.wrap ⟨reg, cur⟩ w = ⟨reg, w⟩ := by
  have ha := assoc_of_mem_nodup hmem hnd
  have hg : Registry.get reg w.name = some w := get_of_types ha
  unfold TypeBuilder.wrap
  rw [show (⟨reg, cur⟩ : TypeBuilder).m_registry = reg from rfl, hg]

theorem addPointer_mem (k : Nat) :
    ∀ (reg : Registry) (cur fin : Ty), reg.wf →
      (∀ s, IsComp s fin → (s.name, s) ∈ reg.types) →
      IsComp (iterPtr k cur) fin →
      TypeBuilder.addPointer ⟨reg, cur⟩ k = ⟨reg, iterPtr k cur⟩ := by
  induction k with
  | zero => intro reg cur fin _ _ _; rfl
  | succ k ih =>
    intro reg cur fin hwf hall hcomp
    have hw : IsComp (Ty.pointer cur) fin := by
      refine isComp_trans ?_ hcomp
      show IsComp (Ty.pointer cur) (iterPtr k (Ty.pointer cur))
      exact isComp_iterPtr k (Ty.pointer cur)
    have hwrap := wrap_of_mem cur hwf.1 (hall _ hw)
    show (TypeBuilder.wrap ⟨reg, cur⟩ (Ty.pointer cur)).addPointer k = _
    rw [hwrap]
    exact ih reg (Ty.pointer cur) fin hwf hall hcomp

theorem applyAll_mem (ms : List Modifier) :
    ∀ (reg : Registry) (cur fin : Ty), reg.wf →
      fin = Ty.applyMods cur ms →
      (∀ s, IsComp s fin → (s.name, s) ∈ reg.types) →
      TypeBuilder.applyAll ⟨reg, cur⟩ ms = ⟨reg, fin⟩ := by
  induction ms with
  | nil =>
    intro reg cur fin _ hfin _
    rw [hfin]
    rfl
  | cons m tl ih =>
    intro reg cur fin hwf hfin hall
    obtain ⟨cat, sz⟩ := m
    cases cat with
    | pointer =>
      have hcomp : IsComp (iterPtr sz cur) fin := by
        rw [hfin]
        exact isComp_applyMods tl (iterPtr sz cur)
      have hstep : TypeBuilder.applyAll ⟨reg, cur⟩ (⟨Category.pointer, sz⟩ :: tl)
          = TypeBuilder.applyAll
              (TypeBuilder.addPointer ⟨reg, cur⟩ sz) tl := rfl
      rw [hstep, addPointer_mem sz reg cur fin hwf hall hcomp]
      exact ih reg (iterPtr sz cur) fin hwf hfin hall
    | array =>
      have hcomp : IsComp (Ty.array sz cur) fin := by
        rw [hfin]
        exact isComp_applyMods tl (Ty.array sz cur)
      have hwrap := wrap_of_mem cur hwf.1 (hall _ hcomp)
      have hstep : TypeBuilder.applyAll ⟨reg, cur⟩ (⟨Category.array, sz⟩ :: tl)
          = TypeBuilder.applyAll
              (TypeBuilder.wrap ⟨reg, cur⟩ (Ty.array sz cur)) tl := rfl
      rw [hstep, hwrap]
      exact ih reg (Ty.array sz cur) fin hwf hfin hall

theorem closure_isComp {r : Registry} (hwf : r.wf) {s t : Ty} (hcomp : IsComp s t) :
    (t.name, t) ∈ r.types → (s.name, s) ∈ r.types := by
  induction hcomp with
  | refl => exact fun h => h
  | ptr hc ih =>
    intro hmem
    apply ih
    apply hwf.2.2.2.1 _ hmem
    simp [Ty.comps]
  | arr nn hc ih =>
    intro hmem
    apply ih
    apply hwf.2.2.2.1 _ hmem
    simp [Ty.comps]

theorem isComp_rootTy (t : Ty) : IsComp (Ty.base t.root) t := by
  induction t with
  | base s => exact IsComp.refl _
  | pointer t ih => exact IsComp.ptr ih
  | array n t ih => exact IsComp.arr n ih

theorem valid_name_base {u : Ty} (h : validBaseName u.name = true) :
    u = Ty.base u.name := by
  cases u with
  | base s => rfl
  | pointer t => rw [pointer_name_not_base t] at h; cases h
  | array n t => rw [array_name_not_base n t] at h; cases h

theorem valid_name_wellFormed {t : Ty} (h : t.valid = true) :
    wellFormedName t.name := by
  unfold wellFormedName getBaseTypename
  rw [splitName_name h]
  refine ⟨valid_root h, ?_⟩
  rw [show (t.root, t.suffixChars).2 = t.suffixChars from rfl, parseSuffix_suffixChars]
  rfl

theorem validBase_wellFormed {n : List Char} (h : validBaseName n = true) :
    wellFormedName n := by
  unfold wellFormedName getBaseTypename
  rw [splitName_validBase h]
  exact ⟨h, rfl⟩

theorem parse_ok_spec {r : Registry} {n : List Char} {baseT : Ty} {ms : List Modifier}
    (h : TypeBuilder.parse r n = Except.ok (baseT, ms)) :
    validBaseName (getBaseTypename n) = true
    ∧ parseSuffix (splitName n).2 = some ms
    ∧ r.get (getBaseTypename n) = some baseT := by
  unfold TypeBuilder.parse at h
  cases hv : validBaseName (getBaseTypename n) with
  | false =>
    rw [hv, if_pos rfl] at h
    exact Except.noConfusion h
  | true =>
    rw [hv, if_neg (by simp)] at h
    cases hps : parseSuffix (splitName n).2 with
    | none =>
      rw [hps] at h
      exact Except.noConfusion h
    | some ms0 =>
      rw [hps] at h
      cases hg : r.get (getBaseTypename n) with
      | none =>
        rw [hg] at h
        exact Except.noConfusion h
      | some t =>
        rw [hg] at h
        have h1 : (t, ms0) = (baseT, ms) := by injection h
        have h2 : t = baseT := congrArg Prod.fst h1
        have h3 : ms0 = ms := congrArg Prod.snd h1
        exact ⟨rfl, congrArg some h3, congrArg some h2⟩

theorem parse_mk {r : Registry} {n : List Char} {baseT : Ty} {ms : List Modifier}
    (h1 : validBaseName (getBaseTypename n) = true)
    (h2 : parseSuffix (splitName n).2 = some ms)
    (h3 : r.get (getBaseTypename n) = some baseT) :
    TypeBuilder.parse r n = Except.ok (baseT, ms) := by
  unfold TypeBuilder.parse
  rw [if_neg (by rw [h1]; simp), h2, h3]

theorem parse_badName_iff {r : Registry} {n : List Char} :
    TypeBuilder.parse r n = Except.error BuildError.badName ↔ ¬ wellFormedName n := by
  unfold TypeBuilder.parse wellFormedName
  cases hv : validBaseName (getBaseTypename n) with
  | false =>
    rw [if_pos rfl]
    simp
  | true =>
    rw [if_neg (by simp)]
    cases hps : parseSuffix (splitName n).2 with
    | none => simp
    | some ms =>
      cases hg : r.get (getBaseTypename n) with
      | none => simp
      | some t => simp

theorem parse_undefined_iff {r : Registry} {n : List Char} {b : List Char} :
    TypeBuilder.parse r n = Except.error (BuildError.undefined b)
      ↔ wellFormedName n ∧ b = getBaseTypename n
        ∧ r.get (getBaseTypename n) = none := by
  unfold TypeBuilder.parse wellFormedName
  cases hv : validBaseName (getBaseTypename n) with
  | false =>
    rw [if_pos rfl]
    simp
  | true =>
    rw [if_neg (by simp)]
    cases hps : parseSuffix (splitName n).2 with
    | none => simp
    | some ms =>
      cases hg : r.get (getBaseTypename n) with
      | none => simp [eq_comm]
      | some t => simp

theorem parse_ok_iff {r : Registry} {n : List Char} :
    (∃ p, TypeBuilder.parse r n = Except.ok p)
      ↔ (wellFormedName n ∧ (r.get (getBaseTypename n)).isSome = true) := by
  unfold TypeBuilder.parse wellFormedName
  cases hv : validBaseName (getBaseTypename n) with
  | false =>
    rw [if_pos rfl]
    simp
  | true =>
    rw [if_neg (by simp)]
    cases hps : parseSuffix (splitName n).2 with
    | none => simp
    | some ms =>
      cases hg : r.get (getBaseTypename n) with
      | none => simp
      | some t => simp

theorem build_fast {r : Registry} {n : List Char} {t : Ty} (hg : r.get n = some t) :
    r.build n = Except.ok (t, r) := by
  unfold Registry.build
  rw [hg]

theorem build_miss {r : Registry} {n : List Char} (hg : r.get n = none) :
    r.build n = TypeBuilder.build r n := by
  unfold Registry.build
  rw [hg]

theorem tbuild_eq {r : Registry} {n : List Char} {baseT : Ty} {ms : List Modifier}
    (hp : TypeBuilder.parse r n = Except.ok (baseT, ms)) :
    TypeBuilder.build r n = Except.ok
      ((TypeBuilder.applyAll ⟨r, baseT⟩ ms).m_type,
       (TypeBuilder.applyAll ⟨r, baseT⟩ ms).m_registry) := by
  unfold TypeBuilder.build
  rw [hp]

theorem tbuild_error {r : Registry} {n : List Char} {e : BuildError}
    (hp : TypeBuilder.parse r n = Except.error e) :
    TypeBuilder.build r n = Except.error e := by
  unfold TypeBuilder.build
  rw [hp]

theorem get_some_base_some {r : Registry} {n : List Char} {t : Ty} (hwf : r.wf)
    (h : r.get n = some t) : (r.get (getBaseTypename n)).isSome = true := by
  have h0 := h
  unfold Registry.get at h0
  cases ht : assoc r.types n with
  | some u =>
    have hm := assoc_mem ht
    have hk : n = u.name := hwf.2.1 _ hm
    have hv : u.valid = true := hwf.2.2.1 _ hm
    have hb : getBaseTypename n = u.root := by
      unfold getBaseTypename
      rw [hk, splitName_name hv]
    have hmem' : (u.name, u) ∈ r.types := by rw [← hk]; exact hm
    have hroot : ((Ty.base u.root).name, Ty.base u.root) ∈ r.types :=
      closure_isComp hwf (isComp_rootTy u) hmem'
    have ha : assoc r.types u.root = some (Ty.base u.root) :=
      assoc_of_mem_nodup hroot hwf.1
    rw [hb, get_of_types ha]
    rfl
  | none =>
    rw [ht] at h0
    cases ha : assoc r.aliases n with
    | none =>
      rw [ha] at h0
      exact Option.noConfusion h0
    | some c =>
      have hvb := (hwf.2.2.2.2 _ (assoc_mem ha)).1
      have hb : getBaseTypename n = n := by
        unfold getBaseTypename
        rw [splitName_validBase hvb]
      rw [hb, h]
      rfl

theorem new_entry_eq_result {r : Registry} {n : List Char} {baseT v : Ty}
    {ms : List Modifier} (hwf : r.wf)
    (hp : TypeBuilder.parse r n = Except.ok (baseT, ms))
    (hn : n = v.name) (hv : v.valid = true) (hr : v.root = baseT.root) :
    Ty.applyMods baseT ms = v := by
  obtain ⟨hvb, hps, hg⟩ := parse_ok_spec hp
  have hsp : splitName n = (v.root, v.suffixChars) := by
    rw [hn]
    exact splitName_name hv
  have hb : getBaseTypename n = v.root := by
    unfold getBaseTypename
    rw [hsp]
  have hms : ms = v.canonMods := by
    rw [hsp] at hps
    rw [show ((v.root, v.suffixChars).2 : List Char) = v.suffixChars from rfl,
      parseSuffix_suffixChars] at hps
    have h1 : v.canonMods = ms := by injection hps
    exact h1.symm
  have hbase : baseT = Ty.base v.root := by
    have hg2 : r.get v.root = some baseT := by rw [← hb]; exact hg
    have h0 := hg2
    unfold Registry.get at h0
    cases ht : assoc r.types v.root with
    | some u =>
      rw [ht] at h0
      have hub : u = baseT := by injection h0
      have hm := assoc_mem ht
      have hk : v.root = u.name := hwf.2.1 _ hm
      have hvr : validBaseName u.name = true := by
        rw [← hk]
        exact valid_root hv
      have hub2 : u = Ty.base u.name := valid_name_base hvr
      rw [hub] at hk
      rw [hub] at hub2
      rw [← hk] at hub2
      exact hub2
    | none =>
      obtain ⟨hbm, hbv⟩ := get_some_spec hwf hg2
      have hroot : ((Ty.base baseT.root).name, Ty.base baseT.root) ∈ r.types :=
        closure_isComp hwf (isComp_rootTy baseT) hbm
      have ha : assoc r.types baseT.root = some (Ty.base baseT.root) :=
        assoc_of_mem_nodup hroot hwf.1
      rw [← hr, ht] at ha
      exact Option.noConfusion ha
  rw [hms, hbase]
  exact applyMods_canonMods v

theorem build_ok_spec {r : Registry} {n : List Char} {t : Ty} {r' : Registry}
    (hwf : r.wf) (h : r.build n = Except.ok (t, r')) :
    r'.wf ∧ (t.name, t) ∈ r'.types ∧ t.valid = true
    ∧ r.types.IsSuffix r'.types ∧ r'.aliases = r.aliases
    ∧ (r.get n = some t ∧ r' = r
       ∨ ∃ baseT ms, r.get n = none ∧ TypeBuilder.parse r n = Except.ok (baseT, ms)
          ∧ t = Ty.applyMods baseT ms
          ∧ ∀ e ∈ r'.types, e ∈ r.types
              ∨ (e.1 = e.2.name ∧ e.2.valid = true ∧ e.2.root = baseT.root
                 ∧ validBaseName e.1 = false)) := by
  unfold Registry.build at h
  cases hg : r.get n with
  | some u =>
    rw [hg] at h
    have h1 : (u, r) = (t, r') := by injection h
    have h2 : u = t := congrArg Prod.fst h1
    have h3 : r = r' := congrArg Prod.snd h1
    obtain ⟨hm, hv⟩ := get_some_spec hwf hg
    rw [h2] at hm hv
    rw [← h3]
    exact ⟨hwf, hm, hv, List.suffix_refl _, rfl, Or.inl ⟨congrArg some h2, rfl⟩⟩
  | none =>
    rw [hg] at h
    unfold TypeBuilder.build at h
    cases hp : TypeBuilder.parse r n with
    | error e =>
      rw [hp] at h
      exact Except.noConfusion h
    | ok p =>
      obtain ⟨baseT, ms⟩ := p
      rw [hp] at h
      obtain ⟨hvb, hps, hgb⟩ := parse_ok_spec hp
      obtain ⟨hbm, hbv⟩ := get_some_spec hwf hgb
      obtain ⟨a1, a2, a3, a4, a5, a6⟩ := applyAll_spec ms r baseT hwf hbm
      have h1 : ((TypeBuilder.applyAll ⟨r, baseT⟩ ms).m_type,
          (TypeBuilder.applyAll ⟨r, baseT⟩ ms).m_registry) = (t, r') := by injection h
      have ht : (TypeBuilder.applyAll ⟨r, baseT⟩ ms).m_type = t := congrArg Prod.fst h1
      have hrr : (TypeBuilder.applyAll ⟨r, baseT⟩ ms).m_registry = r' :=
        congrArg Prod.snd h1
      rw [ht] at a1 a3
      rw [hrr] at a2 a3 a4 a5 a6
      have hv : t.valid = true := a2.2.2.1 _ a3
      exact ⟨a2, a3, hv, a4, a5, Or.inr ⟨baseT, ms, rfl, rfl, a1, a6⟩⟩

theorem build_base_preserved {r r' : Registry} {n : List Char} {baseT : Ty}
    (hwf : r.wf) (hwf' : r'.wf)
    (hvb : validBaseName (getBaseTypename n) = true)
    (hgb : r.get (getBaseTypename n) = some baseT)
    (hsuf : r.types.IsSuffix r'.types) (hali : r'.aliases = r.aliases)
    (hchar : ∀ e ∈ r'.types, e ∈ r.types ∨ validBaseName e.1 = false) :
    r'.get (getBaseTypename n) = some baseT := by
  have h0 := hgb
  unfold Registry.get at h0
  unfold Registry.get
  cases ht' : assoc r'.types (getBaseTypename n) with
  | some u' =>
    have hm := assoc_mem ht'
    rcases hchar _ hm with hold | hbad
    · have ha : assoc r.types (getBaseTypename n) = some u' :=
        assoc_of_mem_nodup hold hwf.1
      rw [ha] at h0
      have hub : u' = baseT := by injection h0
      rw [hub]
    · rw [hvb] at hbad
      cases hbad
  | none =>
    cases ht : assoc r.types (getBaseTypename n) with
    | some u =>
      have hm := assoc_mem ht
      have hm' : ((getBaseTypename n), u) ∈ r'.types := hsuf.sublist.subset hm
      have ha := assoc_of_mem_nodup hm' hwf'.1
      rw [ht'] at ha
      exact Option.noConfusion ha
    | none =>
      rw [ht] at h0
      cases ha : assoc r.aliases (getBaseTypename n) with
      | none =>
        rw [ha] at h0
        exact Option.noConfusion h0
      | some c =>
        rw [ha] at h0
        have hm := assoc_mem h0
        have hm' : (c, baseT) ∈ r'.types := hsuf.sublist.subset hm
        have ha2 : assoc r'.types c = some baseT := assoc_of_mem_nodup hm' hwf'.1
        rw [hali, ha]
        exact ha2

/-- C1: Build is idempotent and canonicalizing.  After a successful
`Registry::build` on a well-formed registry, building the same name again
returns the same stored type and the unchanged registry; any further
successful build whose result is structurally equal to the first resolves to
that one stored type without any new registration; the result is registered
under its canonical name and canonical keys stay unique. -/
theorem C1_build_idempotent_canonical {r : Registry} {n : List Char} {t : Ty}
    {r' : Registry} (hwf : r.wf) (h : r.build n = Except.ok (t, r')) :
    r'.build n = Except.ok (t, r')
    ∧ (∀ n₂ t₂ r₂, r'.build n₂ = Except.ok (t₂, r₂) → t₂ = t → r₂ = r')
    ∧ (t.name, t) ∈ r'.types ∧ (r'.types.map Prod.fst).Nodup := by
  obtain ⟨hwf', hmem, htv, hsuf, hali, hcase⟩ := build_ok_spec hwf h
  refine ⟨?_, ?_, hmem, hwf'.1⟩
  · rcases hcase with ⟨hg, rfl⟩ | ⟨baseT, ms, hg, hp, hteq, hchar⟩
    · exact h
    · obtain ⟨hvb, hps, hgb⟩ := parse_ok_spec hp
      cases hg2 : r'.get n with
      | some v =>
        have h0 := hg2
        unfold Registry.get at h0
        cases ht2 : assoc r'.types n with
        | some v0 =>
          rw [ht2] at h0
          have hv0 : v0 = v := by injection h0
          have hm := assoc_mem ht2
          rcases hchar _ hm with hold | ⟨he1, he2, he3, he4⟩
          · have hmm : n ∈ r.types.map Prod.fst :=
              List.mem_map.mpr ⟨(n, v0), hold, rfl⟩
            have h5 := ((get_none_iff hwf).mp hg).1
            rw [assoc_eq_none] at h5
            exact absurd hmm h5
          · have happ : Ty.applyMods baseT ms = v0 :=
              new_entry_eq_result hwf hp he1 he2 he3
            have hvt : v0 = t := by rw [← happ, ← hteq]
            rw [build_fast hg2, ← hv0, hvt]
        | none =>
          rw [ht2] at h0
          cases ha2 : assoc r'.aliases n with
          | none =>
            rw [ha2] at h0
            exact Option.noConfusion h0
          | some c =>
            rw [hali] at ha2
            have h5 := ((get_none_iff hwf).mp hg).2
            rw [h5] at ha2
            exact Option.noConfusion ha2
      | none =>
        have hgb' : r'.get (getBaseTypename n) = some baseT := by
          apply build_base_preserved hwf hwf' hvb hgb hsuf hali
          intro e he
          rcases hchar e he with h1 | h2
          · exact Or.inl h1
          · exact Or.inr h2.2.2.2
        have hp' : TypeBuilder.parse r' n = Except.ok (baseT, ms) :=
          parse_mk hvb hps hgb'
        have hmm : TypeBuilder.applyAll ⟨r', baseT⟩ ms = ⟨r', t⟩ := by
          apply applyAll_mem ms r' baseT t hwf' hteq
          intro s hs
          exact closure_isComp hwf' hs hmem
        rw [build_miss hg2, tbuild_eq hp', hmm]
  · intro n₂ t₂ r₂ h2 hteq2
    obtain ⟨hwf2, hmem2, htv2, hsuf2, hali2, hcase2⟩ := build_ok_spec hwf' h2
    rcases hcase2 with ⟨hg2, rfl⟩ | ⟨base₂, ms₂, hg2, hp2, hteq2', hchar2⟩
    · rfl
    · have hmm : TypeBuilder.applyAll ⟨r', base₂⟩ ms₂ = ⟨r', t₂⟩ := by
        apply applyAll_mem ms₂ r' base₂ t₂ hwf' hteq2'
        intro s hs
        rw [hteq2] at hs
        exact closure_isComp hwf' hs hmem
      have h3 := build_miss hg2
      rw [h3, tbuild_eq hp2, hmm] at h2
      have h4 : (t₂, r') = (t₂, r₂) := by injection h2
      exact (congrArg Prod.snd h4).symm

/-- Witness: `C1_build_idempotent_canonical` applied to the one-type registry
`regFoo` and the name `Foo*`. -/
theorem C1_witness :
    Registry.wf regFoo
    ∧ Registry.build regFoo fooStarChars
        = Except.ok (Ty.pointer (Ty.base fooChars), regFooStar)
    ∧ Registry.build regFooStar fooStarChars
        = Except.ok (Ty.pointer (Ty.base fooChars), regFooStar) :=
  ⟨by decide, by decide,
    (@C1_build_idempotent_canonical regFoo fooStarChars
      (Ty.pointer (Ty.base fooChars)) regFooStar (by decide) (by decide)).1⟩

theorem get_some_wellFormed {r : Registry} {n : List Char} {t : Ty} (hwf : r.wf)
    (h : r.get n = some t) : wellFormedName n := by
  have h0 := h
  unfold Registry.get at h0
  cases ht : assoc r.types n with
  | some u =>
    have hm := assoc_mem ht
    have hk : n = u.name := hwf.2.1 _ hm
    rw [hk]
    exact valid_name_wellFormed (hwf.2.2.1 _ hm)
  | none =>
    rw [ht] at h0
    cases ha : assoc r.aliases n with
    | none =>
      rw [ha] at h0
      exact Option.noConfusion h0
    | some c => exact validBase_wellFormed (hwf.2.2.2.2 _ (assoc_mem ha)).1

theorem tbuild_error_iff {r : Registry} {n : List Char} {e : BuildError} :
    TypeBuilder.build r n = Except.error e ↔ TypeBuilder.parse r n = Except.error e := by
  constructor
  · intro h
    cases hp : TypeBuilder.parse r n with
    | error e' =>
      rw [tbuild_error hp] at h
      have he : e' = e := by injection h
      rw [he]
    | ok p =>
      obtain ⟨baseT, ms⟩ := p
      rw [tbuild_eq hp] at h
      exact Except.noConfusion h
  · intro h
    exact tbuild_error h

theorem tbuild_ok_exists {r : Registry} {n : List Char} :
    (∃ p, TypeBuilder.build r n = Except.ok p)
      ↔ ∃ q, TypeBuilder.parse r n = Except.ok q := by
  constructor
  · rintro ⟨p, hp⟩
    cases hq : TypeBuilder.parse r n with
    | error e =>
      rw [tbuild_error hq] at hp
      exact Except.noConfusion hp
    | ok q => exact ⟨q, rfl⟩
  · rintro ⟨q, hq⟩
    obtain ⟨baseT, ms⟩ := q
    exact ⟨_, tbuild_eq hq⟩

/-- C2: Error classification of `Registry::build`.  On a well-formed
registry, `build` fails with `BadName` exactly when the input is not a
well-formed type specification, fails with `Undefined` — naming the base-name
prefix — exactly when the input is well-formed but its base name has no
registered type, and succeeds otherwise. -/
theorem C2_build_error_classification {r : Registry} (n : List Char) (hwf : r.wf) :
    (r.build n = Except.error BuildError.badName ↔ ¬ wellFormedName n)
    ∧ (∀ b, r.build n = Except.error (BuildError.undefined b) → b = getBaseTypename n)
    ∧ ((∃ b, r.build n = Except.error (BuildError.undefined b))
        ↔ wellFormedName n ∧ r.get (getBaseTypename n) = none)
    ∧ ((wellFormedName n ∧ (r.get (getBaseTypename n)).isSome = true)
        ↔ ∃ p, r.build n = Except.ok p) := by
  cases hg : r.get n with
  | some t =>
    have hb := build_fast hg
    have hwfn := get_some_wellFormed hwf hg
    have hbs := get_some_base_some hwf hg
    refine ⟨?_, ?_, ?_, ?_⟩
    · rw [hb]
      simp [hwfn]
    · intro b hcontra
      rw [hb] at hcontra
      exact Except.noConfusion hcontra
    · constructor
      · rintro ⟨b, hb'⟩
        rw [hb] at hb'
        exact Except.noConfusion hb'
      · rintro ⟨_, h2⟩
        rw [h2] at hbs
        cases hbs
    · constructor
      · intro _
        exact ⟨(t, r), hb⟩
      · intro _
        exact ⟨hwfn, hbs⟩
  | none =>
    have hb := build_miss hg
    refine ⟨?_, ?_, ?_, ?_⟩
    · rw [hb, tbuild_error_iff]
      exact parse_badName_iff
    · intro b hcontra
      rw [hb, tbuild_error_iff] at hcontra
      exact (parse_undefined_iff.mp hcontra).2.1
    · constructor
      · rintro ⟨b, hb'⟩
        rw [hb, tbuild_error_iff] at hb'
        obtain ⟨h1, _, h3⟩ := parse_undefined_iff.mp hb'
        exact ⟨h1, h3⟩
      · rintro ⟨h1, h3⟩
        refine ⟨getBaseTypename n, ?_⟩
        rw [hb, tbuild_error_iff]
        exact parse_undefined_iff.mpr ⟨h1, rfl, h3⟩
    · constructor
      · rintro ⟨h1, h2⟩
        rw [hb]
        exact tbuild_ok_exists.mpr (parse_ok_iff.mpr ⟨h1, h2⟩)
      · rintro ⟨p, hp⟩
        rw [hb] at hp
        exact parse_ok_iff.mp (tbuild_ok_exists.mp ⟨p, hp⟩)

/-- Witness: `C2_build_error_classification` on `regFoo` with the name
`NoSuchBase*`, which fails with `Undefined` naming `NoSuchBase`, not
`BadName`. -/
theorem C2_witness :
    Registry.wf regFoo
    ∧ Registry.build regFoo nsbStarChars
        = Except.error (BuildError.undefined nsbChars)
    ∧ ((Registry.build regFoo nsbStarChars = Except.error BuildError.badName)
        ↔ ¬ wellFormedName nsbStarChars) :=
  ⟨by decide, by decide, (C2_build_error_classification nsbStarChars (by decide)).1⟩

theorem get_mk (ts : List (List Char × Ty)) (als : List (List Char × List Char))
    (n : List Char) :
    Registry.get ⟨ts, als⟩ n
      = match assoc ts n with
        | some t => some t
        | none =>
          match assoc als n with
          | some c => assoc ts c
          | none => none := rfl

/-- C3 counterexample: on the well-formed registry holding the two base types
`A` and `B`, `alias("A", "B")` succeeds, yet afterwards `get("B")` does not
return the same type as `get("A")` — the pre-existing canonical registration
of `B` shadows the new alias, so the claim as stated fails. -/
theorem C3_counterexample :
    Registry.wf regAB
    ∧ Registry.alias regAB ['A'] ['B'] = Except.ok regAB'
    ∧ ¬ (regAB'.get ['B'] = regAB'.get ['A']) := by
  decide

/-- C3 (amended): `Registry::alias` fails with `Undefined` when the existing
name does not resolve, fails with `BadName` when the new name is not a
syntactically valid alias name, and on success — provided the new name is not
already a registered canonical name — makes the new name a lookup key
resolving to the identical stored type as the existing name. -/
theorem C3_alias_contract {r : Registry} (existingName newName : List Char)
    (hwf : r.wf) :
    (r.get existingName = none →
      r.alias existingName newName
        = Except.error (BuildError.undefined existingName))
    ∧ (∀ t, r.get existingName = some t → validBaseName newName = false →
        r.alias existingName newName = Except.error BuildError.badName)
    ∧ (∀ r₁, r.alias existingName newName = Except.ok r₁ →
        assoc r.types newName = none →
        ∃ t, r.get existingName = some t
          ∧ r₁.get newName = some t ∧ r₁.get existingName = some t) := by
  refine ⟨?_, ?_, ?_⟩
  · intro hg
    unfold Registry.alias
    rw [hg]
  · intro t hg hv
    have hred : r.alias existingName newName
        = if validBaseName newName = true
          then Except.ok (⟨r.types, (newName, t.name) :: r.aliases⟩ : Registry)
          else Except.error BuildError.badName := by
      unfold Registry.alias
      rw [hg]
    rw [hred, if_neg (by simp [hv])]
  · intro r₁ hal hfresh
    cases hg : r.get existingName with
    | none =>
      have hred : r.alias existingName newName
          = Except.error (BuildError.undefined existingName) := by
        unfold Registry.alias
        rw [hg]
      rw [hred] at hal
      exact Except.noConfusion hal
    | some t =>
      have hred : r.alias existingName newName
          = if validBaseName newName = true
            then Except.ok (⟨r.types, (newName, t.name) :: r.aliases⟩ : Registry)
            else Except.error BuildError.badName := by
        unfold Registry.alias
        rw [hg]
      rw [hred] at hal
      by_cases hv : validBaseName newName = true
      · rw [if_pos hv] at hal
        have hr1 : (⟨r.types, (newName, t.name) :: r.aliases⟩ : Registry) = r₁ := by
          injection hal
        obtain ⟨hmem, htv⟩ := get_some_spec hwf hg
        have hca : assoc r.types t.name = some t := assoc_of_mem_nodup hmem hwf.1
        refine ⟨t, rfl, ?_, ?_⟩
        · rw [← hr1, get_mk, hfresh, assoc_cons, if_pos rfl]
          exact hca
        · rw [← hr1, get_mk]
          have h0 := hg
          unfold Registry.get at h0
          cases ht : assoc r.types existingName with
          | some u =>
            rw [ht] at h0
            exact h0
          | none =>
            rw [ht] at h0
            by_cases hne : newName = existingName
            · rw [assoc_cons, if_pos hne]
              exact hca
            · rw [assoc_cons, if_neg hne]
              exact h0
      · rw [if_neg hv] at hal
        exact Except.noConfusion hal

/-- Witness: `C3_alias_contract` on `regFoo` — aliasing from the missing base
`Bar` fails with `Undefined`, and a successful `alias("Foo", "Bar")` makes
`Bar` resolve to the very type `Foo` resolves to. -/
theorem C3_witness :
    Registry.wf regFoo
    ∧ Registry.alias regFoo barChars ['X']
        = Except.error (BuildError.undefined barChars)
    ∧ (∃ t, Registry.get regFoo fooChars = some t
        ∧ regFooBar.get barChars = some t ∧ regFooBar.get fooChars = some t) :=
  ⟨by decide,
    (@C3_alias_contract regFoo barChars ['X'] (by decide)).1 (by decide),
    (@C3_alias_contract regFoo fooChars barChars (by decide)).2.2 regFooBar
      (by decide) (by decide)⟩

/-- C4: `registry_do_get` is a pure lookup with no side effects: the registry
comes back exactly as it was, the result is exactly `Registry::get`'s lookup
result, an absent name yields nothing, and a lookup by an alias succeeds
identically to a lookup by the canonical name it stands for. -/
theorem C4_get_pure_lookup {r : Registry} (n : List Char) (hwf : r.wf) :
    (registry_do_get r n).2 = r
    ∧ (registry_do_get r n).1 = r.get n
    ∧ (assoc r.types n = none ∧ assoc r.aliases n = none → r.get n = none)
    ∧ (∀ a c, assoc r.types a = none → assoc r.aliases a = some c →
        r.get a = r.get c ∧ (r.get a).isSome = true) := by
  refine ⟨rfl, rfl, ?_, ?_⟩
  · intro h
    exact (get_none_iff hwf).mpr h
  · intro a c h1 h2
    have hga : r.get a = assoc r.types c := by
      unfold Registry.get
      rw [h1, h2]
    have hcs := (hwf.2.2.2.2 _ (assoc_mem h2)).2
    cases hc : assoc r.types c with
    | none =>
      rw [hc] at hcs
      cases hcs
    | some u =>
      have hgc : r.get c = some u := get_of_types hc
      rw [hga, hc, hgc]
      exact ⟨rfl, rfl⟩

/-- Witness: `C4_get_pure_lookup` on the registry where `Bar` aliases
`Foo`. -/
theorem C4_witness :
    Registry.wf regFooBar
    ∧ (registry_do_get regFooBar barChars).2 = regFooBar :=
  ⟨by decide, (@C4_get_pure_lookup regFooBar barChars (by decide)).1⟩

/-- C5: Suffix tokenization.  The empty suffix yields the empty modifier
list; a maximal run of `k` consecutive `*` yields one `Pointer` modifier of
size `k`; a bracketed digit run yields one `Array` modifier whose size is the
denoted integer (in particular the decimal rendering of `k` yields size `k`);
a stray character, an unclosed bracket, an empty bracket and non-digit
bracket content all fail. -/
theorem C5_suffix_tokenization :
    parseSuffix [] = some []
    ∧ (∀ (k : Nat) (rest : List Char), 1 ≤ k → rest.head? ≠ some '*' →
        parseSuffix (List.replicate k '*' ++ rest)
          = (parseSuffix rest).map (fun ms => ⟨Category.pointer, k⟩ :: ms))
    ∧ (∀ (ds rest : List Char), ds ≠ [] → (∀ c ∈ ds, c.isDigit = true) →
        parseSuffix ('[' :: (ds ++ ']' :: rest))
          = (parseSuffix rest).map (fun ms => ⟨Category.array, val ds⟩ :: ms))
    ∧ (∀ (k : Nat) (rest : List Char),
        parseSuffix ('[' :: (natChars k ++ ']' :: rest))
          = (parseSuffix rest).map (fun ms => ⟨Category.array, k⟩ :: ms))
    ∧ (∀ (c : Char) (cs : List Char), c ≠ '*' → c ≠ '[' →
        parseSuffix (c :: cs) = none)
    ∧ (∀ ds : List Char, (∀ c ∈ ds, c.isDigit = true) →
        parseSuffix ('[' :: ds) = none)
    ∧ (∀ cs : List Char, parseSuffix ('[' :: ']' :: cs) = none)
    ∧ (∀ (c : Char) (cs : List Char), c.isDigit = false → c ≠ ']' →
        parseSuffix ('[' :: c :: cs) = none) := by
  refine ⟨parseSuffix_nil, ?_, ?_, ?_, ?_, ?_, ?_, ?_⟩
  · intro k rest hk hr
    exact parseSuffix_stars hk hr
  · intro ds rest hne hd
    exact parseSuffix_bracket hne hd
  · intro k rest
    rw [parseSuffix_bracket natChars_ne_nil (fun c hc => natChars_digits c hc),
      val_natChars]
  · intro c cs h1 h2
    exact parseSuffix_stray h1 h2
  · intro ds hd
    exact parseSuffix_unclosed hd
  · intro cs
    exact parseSuffix_empty_bracket
  · intro c cs h1 h2
    exact parseSuffix_bad_bracket h1 h2

/-- Witness: the maximal-run clause of `C5_suffix_tokenization` at the suffix
`**`, which tokenizes to one pointer modifier of size 2. -/
theorem C5_witness :
    (1 ≤ 2 ∧ (([] : List Char).head? ≠ some '*'))
    ∧ parseSuffix (List.replicate 2 '*' ++ [])
        = (parseSuffix []).map (fun ms => ⟨Category.pointer, 2⟩ :: ms) :=
  ⟨⟨by decide, by decide⟩,
    C5_suffix_tokenization.2.1 2 [] (by decide) (by decide)⟩

/-- C8: `TypeBuilder::addPointer` with level 0 is a no-op: the builder is
returned unchanged — same current type, same registry, so no new type is
registered. -/
theorem C8_addPointer_zero_noop (tb : TypeBuilder) :
    tb.addPointer 0 = tb
    ∧ (tb.addPointer 0).getType = tb.getType
    ∧ (tb.addPointer 0).m_registry = tb.m_registry :=
  ⟨rfl, rfl, rfl⟩

/-- C9: Every core operation is deterministic: from equal registry states and
equal input strings, `get`, `build`, `parse` and `alias` produce identical
results. -/
theorem C9_operations_deterministic (r₁ r₂ : Registry) (n₁ n₂ : List Char)
    (hr : r₁ = r₂) (hn : n₁ = n₂) :
    r₁.get n₁ = r₂.get n₂
    ∧ r₁.build n₁ = r₂.build n₂
    ∧ TypeBuilder.parse r₁ n₁ = TypeBuilder.parse r₂ n₂
    ∧ ∀ m₁ m₂ : List Char, m₁ = m₂ → r₁.alias n₁ m₁ = r₂.alias n₂ m₂ := by
  subst hr
  subst hn
  exact ⟨rfl, rfl, rfl, fun m₁ m₂ hm => by rw [hm]⟩

/-- Witness: `C9_operations_deterministic` instantiated at `regFoo` and the
name `Foo`. -/
theorem C9_witness :
    regFoo = regFoo ∧ fooChars = fooChars
    ∧ Registry.get regFoo fooChars = Registry.get regFoo fooChars :=
  ⟨rfl, rfl,
    (C9_operations_deterministic regFoo regFoo fooChars fooChars rfl rfl).1⟩

theorem build_error_parse {r : Registry} {n : List Char} {e : BuildError}
    (h : r.build n = Except.error e) : TypeBuilder.parse r n = Except.error e := by
  unfold Registry.build at h
  cases hg : r.get n with
  | some t =>
    rw [hg] at h
    exact Except.noConfusion h
  | none =>
    rw [hg] at h
    exact tbuild_error_iff.mp h

theorem do_build_error_shape {r : Registry} {n : List Char} {e : RubyError}
    (h : registry_do_build r n = Except.error e) :
    e = RubyError.typeError ("invalid type ".toList ++ n) := by
  unfold registry_do_build at h
  cases hb : r.build n with
  | ok p =>
    rw [hb] at h
    exact Except.noConfusion h
  | error be =>
    rw [hb] at h
    have h1 : RubyError.typeError ("invalid type ".toList ++ n) = e := by injection h
    exact h1.symm

theorem alias_error_shape {r : Registry} {name aliased : List Char} {e : RubyError}
    (h : registry_alias r name aliased = Except.error e) :
    e = RubyError.argError ("invalid type name ".toList ++ name)
    ∨ e = RubyError.argError ("no such type ".toList ++ aliased) := by
  unfold registry_alias at h
  cases ha : r.alias aliased name with
  | ok r1 =>
    rw [ha] at h
    exact Except.noConfusion h
  | error be =>
    cases be with
    | badName =>
      rw [ha] at h
      left
      have h1 : RubyError.argError ("invalid type name ".toList ++ name) = e := by
        injection h
      exact h1.symm
    | undefined b =>
      rw [ha] at h
      right
      have h1 : RubyError.argError ("no such type ".toList ++ aliased) = e := by
        injection h
      exact h1.symm

theorem registry_alias_badName {r : Registry} {name aliased : List Char}
    (h : r.alias aliased name = Except.error BuildError.badName) :
    registry_alias r name aliased
      = Except.error (RubyError.argError ("invalid type name ".toList ++ name)) := by
  unfold registry_alias
  rw [h]

theorem registry_alias_undefined {r : Registry} {name aliased b : List Char}
    (h : r.alias aliased name = Except.error (BuildError.undefined b)) :
    registry_alias r name aliased
      = Except.error (RubyError.argError ("no such type ".toList ++ aliased)) := by
  unfold registry_alias
  rw [h]

theorem registry_import_error (file msg : List Char) :
    registry_import file (Except.error msg)
      = Except.error (RubyError.runtimeError
          ("cannot import ".toList ++ file ++ ": ".toList ++ msg)) := rfl

/-- C6: The Ruby wrapper keeps the three failure kinds observably distinct:
two failing `do_build` calls whose underlying kinds differ (`BadName` versus
`Undefined`) raise distinct errors, the errors raised by `do_build` and by
`alias` are never equal, two failing `alias` calls of different underlying
kinds raise distinct errors, and an import failure is distinct from both. -/
theorem C6_error_distinction :
    (∀ (r₁ r₂ : Registry) (n₁ n₂ b : List Char),
        Registry.build r₁ n₁ = Except.error BuildError.badName →
        Registry.build r₂ n₂ = Except.error (BuildError.undefined b) →
        registry_do_build r₁ n₁ ≠ registry_do_build r₂ n₂)
    ∧ (∀ (r₁ r₂ : Registry) (n₁ nm al : List Char) (e₁ e₂ : RubyError),
        registry_do_build r₁ n₁ = Except.error e₁ →
        registry_alias r₂ nm al = Except.error e₂ → e₁ ≠ e₂)
    ∧ (∀ (r₁ r₂ : Registry) (nm₁ al₁ nm₂ al₂ b : List Char),
        r₁.alias al₁ nm₁ = Except.error BuildError.badName →
        r₂.alias al₂ nm₂ = Except.error (BuildError.undefined b) →
        registry_alias r₁ nm₁ al₁ ≠ registry_alias r₂ nm₂ al₂)
    ∧ (∀ (file msg : List Char) (r : Registry) (n nm al : List Char)
        (e₁ e₂ e₃ : RubyError),
        registry_import file (Except.error msg) = Except.error e₁ →
        registry_do_build r n = Except.error e₂ →
        registry_alias r nm al = Except.error e₃ →
        e₁ ≠ e₂ ∧ e₁ ≠ e₃) := by
  refine ⟨?_, ?_, ?_, ?_⟩
  · intro r₁ r₂ n₁ n₂ b h1 h2 heq
    have e1 : registry_do_build r₁ n₁
        = Except.error (RubyError.typeError ("invalid type ".toList ++ n₁)) := by
      unfold registry_do_build
      rw [h1]
    have e2 : registry_do_build r₂ n₂
        = Except.error (RubyError.typeError ("invalid type ".toList ++ n₂)) := by
      unfold registry_do_build
      rw [h2]
    rw [e1, e2] at heq
    have h3 : RubyError.typeError ("invalid type ".toList ++ n₁)
        = RubyError.typeError ("invalid type ".toList ++ n₂) := by injection heq
    have h4 : "invalid type ".toList ++ n₁ = "invalid type ".toList ++ n₂ := by
      injection h3
    have h5 : n₁ = n₂ := List.append_cancel_left h4
    have h6 : ¬ wellFormedName n₁ := parse_badName_iff.mp (build_error_parse h1)
    have h7 : wellFormedName n₂ := (parse_undefined_iff.mp (build_error_parse h2)).1
    rw [← h5] at h7
    exact h6 h7
  · intro r₁ r₂ n₁ nm al e₁ e₂ h1 h2 heq
    have s1 := do_build_error_shape h1
    have s2 := alias_error_shape h2
    rcases s2 with s2 | s2 <;> rw [s1, s2] at heq <;> exact RubyError.noConfusion heq
  · intro r₁ r₂ nm₁ al₁ nm₂ al₂ b h1 h2 heq
    rw [registry_alias_badName h1, registry_alias_undefined h2] at heq
    have h3 : RubyError.argError ("invalid type name ".toList ++ nm₁)
        = RubyError.argError ("no such type ".toList ++ al₂) := by injection heq
    have h4 : "invalid type name ".toList ++ nm₁ = "no such type ".toList ++ al₂ := by
      injection h3
    have h5 : ("invalid type name ".toList ++ nm₁).head? = some 'i' := rfl
    rw [h4] at h5
    have h6 : ("no such type ".toList ++ al₂).head? = some 'n' := rfl
    rw [h6] at h5
    have h7 : 'n' = 'i' := by injection h5
    exact absurd h7 (by decide)
  · intro file msg r n nm al e₁ e₂ e₃ h1 h2 h3
    have s1 : e₁ = RubyError.runtimeError
        ("cannot import ".toList ++ file ++ ": ".toList ++ msg) := by
      rw [registry_import_error] at h1
      have h4 : RubyError.runtimeError
          ("cannot import ".toList ++ file ++ ": ".toList ++ msg) = e₁ := by
        injection h1
      exact h4.symm
    have s2 := do_build_error_shape h2
    have s3 := alias_error_shape h3
    constructor
    · rw [s1, s2]
      intro hcon
      exact RubyError.noConfusion hcon
    · rcases s3 with s3 | s3 <;> rw [s1, s3] <;> intro hcon <;>
        exact RubyError.noConfusion hcon

/-- Witness: the `do_build` clause of `C6_error_distinction` — a `BadName`
failure on `Foo[` and an `Undefined` failure on `Bar` in `regFoo` surface as
distinct Ruby errors. -/
theorem C6_witness :
    Registry.build regFoo ['F', 'o', 'o', '['] = Except.error BuildError.badName
    ∧ Registry.build regFoo barChars = Except.error (BuildError.undefined barChars)
    ∧ registry_do_build regFoo ['F', 'o', 'o', '['] ≠ registry_do_build regFoo barChars :=
  ⟨by decide, by decide,
    C6_error_distinction.1 regFoo regFoo ['F', 'o', 'o', '['] barChars barChars
      (by decide) (by decide)⟩

/-- C7: The registry is append-only and canonically keyed: `get` leaves the
registry unchanged; a successful `build` keeps the registry well-formed with
unique canonical keys, extends the type table so that every previously
registered entry is still present unchanged, and leaves aliases untouched; a
successful `alias` leaves the type table exactly as it was and preserves
well-formedness. -/
theorem C7_append_only {r : Registry} (hwf : r.wf) :
    (∀ n, (registry_do_get r n).2 = r)
    ∧ (∀ n t r', r.build n = Except.ok (t, r') →
        r'.wf ∧ (r'.types.map Prod.fst).Nodup ∧ r.types.IsSuffix r'.types
        ∧ r'.aliases = r.aliases
        ∧ ∀ e ∈ r.types, e ∈ r'.types)
    ∧ (∀ ex nw r', r.alias ex nw = Except.ok r' →
        r'.wf ∧ r'.types = r.types) := by
  refine ⟨fun n => rfl, ?_, ?_⟩
  · intro n t r' h
    obtain ⟨hwf', _, _, hsuf, hali, _⟩ := build_ok_spec hwf h
    exact ⟨hwf', hwf'.1, hsuf, hali, fun e he => hsuf.sublist.subset he⟩
  · intro ex nw r' h
    cases hg : r.get ex with
    | none =>
      have hred : r.alias ex nw = Except.error (BuildError.undefined ex) := by
        unfold Registry.alias
        rw [hg]
      rw [hred] at h
      exact Except.noConfusion h
    | some t =>
      have hred : r.alias ex nw
          = if validBaseName nw = true
            then Except.ok (⟨r.types, (nw, t.name) :: r.aliases⟩ : Registry)
            else Except.error BuildError.badName := by
        unfold Registry.alias
        rw [hg]
      rw [hred] at h
      by_cases hv : validBaseName nw = true
      · rw [if_pos hv] at h
        have hr' : (⟨r.types, (nw, t.name) :: r.aliases⟩ : Registry) = r' := by
          injection h
        rw [← hr']
        obtain ⟨hmem, _⟩ := get_some_spec hwf hg
        obtain ⟨hnd, hkey, hval, hclo, hali⟩ := hwf
        refine ⟨⟨hnd, hkey, hval, hclo, ?_⟩, rfl⟩
        intro a ha
        rcases List.mem_cons.mp ha with rfl | ha'
        · refine ⟨hv, ?_⟩
          rw [assoc_of_mem_nodup hmem hnd]
          rfl
        · exact hali _ ha'
      · rw [if_neg hv] at h
        exact Except.noConfusion h

/-- Witness: the alias clause of `C7_append_only` — `alias("Foo", "Bar")` on
`regFoo` leaves the type table untouched and the registry well-formed. -/
theorem C7_witness :
    Registry.wf regFoo
    ∧ Registry.alias regFoo fooChars barChars = Except.ok regFooBar
    ∧ (regFooBar.wf ∧ regFooBar.types = regFoo.types) :=
  ⟨by decide, by decide,
    (@C7_append_only regFoo (by decide)).2.2 fooChars barChars regFooBar (by decide)⟩

/-- C10: A successfully constructed `TypeBuilder` always holds a valid
current type: `getType` is the total projection of the always-present current
type, both constructors establish that the current type is a registered type,
and `addPointer`/`addArray` preserve that invariant, so `getType` cannot
fail. -/
theorem C10_typebuilder_valid_current :
    (∀ tb : TypeBuilder, tb.getType = tb.m_type)
    ∧ (∀ (r : Registry) (b : List Char) (tb : TypeBuilder), r.wf →
        TypeBuilder.ofBase r b = Except.ok tb →
        tb.m_registry.wf ∧ (tb.getType.name, tb.getType) ∈ tb.m_registry.types)
    ∧ (∀ (r : Registry) (t : Ty), r.wf → (t.name, t) ∈ r.types →
        ((TypeBuilder.ofType r t).getType.name, (TypeBuilder.ofType r t).getType)
          ∈ (TypeBuilder.ofType r t).m_registry.types)
    ∧ (∀ (reg : Registry) (cur : Ty) (k : Nat), reg.wf →
        (cur.name, cur) ∈ reg.types →
        (TypeBuilder.addPointer ⟨reg, cur⟩ k).m_registry.wf
        ∧ ((TypeBuilder.addPointer ⟨reg, cur⟩ k).getType.name,
            (TypeBuilder.addPointer ⟨reg, cur⟩ k).getType)
            ∈ (TypeBuilder.addPointer ⟨reg, cur⟩ k).m_registry.types)
    ∧ (∀ (reg : Registry) (cur : Ty) (sz : Nat), reg.wf →
        (cur.name, cur) ∈ reg.types →
        (TypeBuilder.addArray ⟨reg, cur⟩ sz).m_registry.wf
        ∧ ((TypeBuilder.addArray ⟨reg, cur⟩ sz).getType.name,
            (TypeBuilder.addArray ⟨reg, cur⟩ sz).getType)
            ∈ (TypeBuilder.addArray ⟨reg, cur⟩ sz).m_registry.types) := by
  refine ⟨fun tb => rfl, ?_, ?_, ?_, ?_⟩
  · intro r b tb hwf hmk
    unfold TypeBuilder.ofBase at hmk
    cases hg : r.get b with
    | none =>
      rw [hg] at hmk
      exact Except.noConfusion hmk
    | some t =>
      rw [hg] at hmk
      have htb : (⟨r, t⟩ : TypeBuilder) = tb := by injection hmk
      rw [← htb]
      obtain ⟨hm, _⟩ := get_some_spec hwf hg
      exact ⟨hwf, hm⟩
  · intro r t _ hmem
    exact hmem
  · intro reg cur k hwf hmem
    obtain ⟨_, i2, i3, _, _, _⟩ := addPointer_spec k reg cur hwf hmem
    exact ⟨i2, i3⟩
  · intro reg cur sz hwf hmem
    obtain ⟨j1, j2, j3, _, _, _⟩ := wrap_spec hwf hmem (Or.inr ⟨sz, rfl⟩)
    refine ⟨j2, ?_⟩
    show ((TypeBuilder.wrap ⟨reg, cur⟩ (Ty.array sz cur)).m_type.name,
      (TypeBuilder.wrap ⟨reg, cur⟩ (Ty.array sz cur)).m_type)
      ∈ (TypeBuilder.wrap ⟨reg, cur⟩ (Ty.array sz cur)).m_registry.types
    rw [j1]
    exact j3

/-- Witness: `C10_typebuilder_valid_current`'s constructor clause on `regFoo`
with base `Foo`. -/
theorem C10_witness :
    Registry.wf regFoo
    ∧ TypeBuilder.ofBase regFoo fooChars
        = Except.ok (TypeBuilder.ofType regFoo (Ty.base fooChars))
    ∧ ((TypeBuilder.ofType regFoo (Ty.base fooChars)).m_registry.wf
        ∧ ((TypeBuilder.ofType regFoo (Ty.base fooChars)).getType.name,
            (TypeBuilder.ofType regFoo (Ty.base fooChars)).getType)
            ∈ (TypeBuilder.ofType regFoo (Ty.base fooChars)).m_registry.types) :=
  ⟨by decide, by decide,
    C10_typebuilder_valid_current.2.1 regFoo fooChars
      (TypeBuilder.ofType regFoo (Ty.base fooChars)) (by decide) (by decide)⟩

end Typelib
